import Mathlib

/-!
Shallow embedding of the log-structured key-value store implemented in
`src/rust/project02/src/kv.rs` (struct `KvStore` and its helpers).

Modelling conventions:

* File contents are `List Char`.  The Rust code counts byte offsets of the
  UTF-8 encoded JSON stream; the model counts positions in the same stream
  viewed as a character sequence.  Every offset consumed by the engine was
  previously produced by the same engine, so the two views coincide for all
  internal-consistency properties stated here.
* The file-system directory backing a store is an association list from file
  name to file content.  All file-system operations the Rust code performs
  (`create_dir_all`, `read_dir`, `File::create`, `File::open`, append,
  flush) act on this list; the happy-path model treats the file system as
  reliable, and `setIo`/`removeIo` additionally model write/flush failures.
* Generation numbers (`u64` in Rust) are modelled as unbounded naturals;
  `u64` overflow of `current_generation + 1` is out of scope.
* `serde_json` serialization of `Command` is modelled concretely: the exact
  compact byte shape `to_writer` emits (externally tagged variants, JSON
  string escaping including `\u00XX` control-character escapes) and a
  decoder for that canonical grammar, which is the only byte shape the
  engine itself ever writes.  Lone-surrogate `\uXXXX` escapes are rejected
  and surrogate pairs are not combined; the serializer never emits either.
-/

/-- The `Command` enum of `kv.rs`: the two record kinds written to a log
segment, `Set { key, value }` and `Remove { key }`. -/
inductive Command : Type
  | Set (key value : String)
  | Remove (key : String)
deriving DecidableEq

/-- Modelled from the spec: the error taxonomy of section 7 (the crate's
`error.rs` is not under `src/`; `kv.rs` only constructs
`KvsError::KeyNotFound` and `KvsError::UnexpectedCommandType` and converts
I/O and serde errors).  `replayInconsistency` models the fatal
`.expect("key not in log file")` abort in `load`, and `readerMissing` the
fatal `.expect("Can not get reader by cmd.gen")` abort in `get`. -/
inductive KvsError : Type
  | ioError
  | corruptLog
  | keyNotFound
  | unexpectedCommandType
  | replayInconsistency
  | readerMissing
deriving DecidableEq

/-- The `CommandPos` struct of `kv.rs`: generation, byte offset and byte
length of a serialized command inside that generation's segment file. -/
structure CommandPos where
  gen : Nat
  pos : Nat
  len : Nat
deriving DecidableEq

/-- Lookup in an association list keyed by strings; models map lookup for
both the `BTreeMap` index and the directory of segment files. -/
def alLookup {β : Type} : List (String × β) → String → Option β
  | [], _ => none
  | (k', v) :: rest, k => if k' = k then some v else alLookup rest k

/-- Remove every binding of a key; models `BTreeMap::remove` (observably,
through lookups). -/
def alErase {β : Type} : List (String × β) → String → List (String × β)
  | [], _ => []
  | (k', v) :: rest, k =>
    if k' = k then alErase rest k else (k', v) :: alErase rest k

/-- Insert or overwrite a binding; models `BTreeMap::insert` and
`HashMap::insert` (observably, through lookups). -/
def alInsert {β : Type} (l : List (String × β)) (k : String) (v : β) :
    List (String × β) :=
  (k, v) :: alErase l k

/-- The in-memory index: key to `CommandPos`, the `BTreeMap<String,
CommandPos>` field of `KvStore`. -/
abbrev Index := List (String × CommandPos)

/-- The contents of the store directory: file name to file content. -/
abbrev Dir := List (String × List Char)

def ixContains (ix : Index) (k : String) : Bool :=
  (alLookup ix k).isSome

/-- An opening curly brace character. -/
def lbrace : Char := '\x7b'

/-- A closing curly brace character. -/
def rbrace : Char := '\x7d'

/-- JSON string escaping as performed by `serde_json`: quote and backslash
get two-character escapes, the control characters 0x08/0x09/0x0A/0x0C/0x0D
get `\b \t \n \f \r`, every other control character below 0x20 gets a
lowercase `\u00XX` escape, and all remaining characters are emitted
verbatim. -/
def escapeChar (c : Char) : List Char :=
  if c = '"' then ['\\', '"']
  else if c = '\\' then ['\\', '\\']
  else if c = '\x08' then ['\\', 'b']
  else if c = '\t' then ['\\', 't']
  else if c = '\n' then ['\\', 'n']
  else if c = '\x0c' then ['\\', 'f']
  else if c = '\x0d' then ['\\', 'r']
  else if c.toNat < 32 then
    ['\\', 'u', '0', '0', Nat.digitChar (c.toNat / 16), Nat.digitChar (c.toNat % 16)]
  else [c]

def escapeList : List Char → List Char
  | [] => []
  | c :: cs => escapeChar c ++ escapeList cs

/-- A JSON string literal: quote, escaped body, quote. -/
def encodeJsonString (s : String) : List Char :=
  '"' :: (escapeList s.data ++ ['"'])

/-- The characters up to the key string in a serialized `Set`. -/
def setPre : List Char :=
  [lbrace, '"', 'S', 'e', 't', '"', ':', lbrace, '"', 'k', 'e', 'y', '"', ':']

/-- The characters between key and value strings in a serialized `Set`. -/
def valueSep : List Char :=
  [',', '"', 'v', 'a', 'l', 'u', 'e', '"', ':']

/-- The characters up to the key string in a serialized `Remove`. -/
def removePre : List Char :=
  [lbrace, '"', 'R', 'e', 'm', 'o', 'v', 'e', '"', ':', lbrace, '"', 'k', 'e', 'y', '"', ':']

/-- The two closing braces ending a serialized command. -/
def closeBraces : List Char := [rbrace, rbrace]

/-- Serialization of a `Command` exactly as `serde_json::to_writer` emits
it: the externally tagged compact forms
`{"Set":{"key":K,"value":V}}` and `{"Remove":{"key":K}}`. -/
def encodeCommand : Command → List Char
  | .Set k v =>
    setPre ++ encodeJsonString k ++ valueSep ++ encodeJsonString v ++ closeBraces
  | .Remove k => removePre ++ encodeJsonString k ++ closeBraces

/-- Value of one hexadecimal digit, as accepted in a `\uXXXX` escape. -/
def hexVal (c : Char) : Option Nat :=
  if '0' ≤ c ∧ c ≤ '9' then some (c.toNat - 48)
  else if 'a' ≤ c ∧ c ≤ 'f' then some (c.toNat - 87)
  else if 'A' ≤ c ∧ c ≤ 'F' then some (c.toNat - 55)
  else none

/-- The single-character JSON escapes accepted after a backslash. -/
def unescapeChar (c : Char) : Option Char :=
  if c = '"' then some '"'
  else if c = '\\' then some '\\'
  else if c = '/' then some '/'
  else if c = 'b' then some '\x08'
  else if c = 't' then some '\t'
  else if c = 'n' then some '\n'
  else if c = 'f' then some '\x0c'
  else if c = 'r' then some '\x0d'
  else none

/-- Decode the body of a JSON string literal (after the opening quote) up to
and including the closing quote, returning the decoded characters and the
remaining input.  Raw control characters are rejected, as serde_json
does. -/
def parseStringBody : List Char → Option (List Char × List Char)
  | [] => none
  | c :: cs =>
    if c = '"' then some ([], cs)
    else if c = '\\' then
      match cs with
      | [] => none
      | e :: cs' =>
        if e = 'u' then
          match cs' with
          | h1 :: h2 :: h3 :: h4 :: cs'' =>
            match hexVal h1, hexVal h2, hexVal h3, hexVal h4 with
            | some a, some b, some c2, some d =>
              let n := ((a * 16 + b) * 16 + c2) * 16 + d
              if n < 55296 ∨ (57344 ≤ n ∧ n < 1114112) then
                (parseStringBody cs'').map (fun p => (Char.ofNat n :: p.1, p.2))
              else none
            | _, _, _, _ => none
          | _ => none
        else
          match unescapeChar e with
          | some u => (parseStringBody cs').map (fun p => (u :: p.1, p.2))
          | none => none
    else if c.toNat < 32 then none
    else (parseStringBody cs).map (fun p => (c :: p.1, p.2))

/-- Consume an expected literal character sequence. -/
def parseLit : List Char → List Char → Option (List Char)
  | [], s => some s
  | _ :: _, [] => none
  | l :: ls, c :: cs => if c = l then parseLit ls cs else none

/-- Decode a JSON string literal. -/
def parseJsonString : List Char → Option (String × List Char)
  | [] => none
  | c :: cs =>
    if c = '"' then
      match parseStringBody cs with
      | some (out, r) => some (String.mk out, r)
      | none => none
    else none

/-- One step of `serde_json::Deserializer::into_iter::<Command>`,
specialized to the canonical compact grammar that `encodeCommand` (and hence
the engine) produces: decode one command from the head of the stream and
return it together with the unconsumed remainder. -/
def decodeOneCommand (s : List Char) : Option (Command × List Char) :=
  match parseLit setPre s with
  | some s1 =>
    match parseJsonString s1 with
    | some (k, s2) =>
      match parseLit valueSep s2 with
      | some s3 =>
        match parseJsonString s3 with
        | some (v, s4) =>
          match parseLit closeBraces s4 with
          | some s5 => some (Command.Set k v, s5)
          | none => none
        | none => none
      | none => none
    | none => none
  | none =>
    match parseLit removePre s with
    | some s1 =>
      match parseJsonString s1 with
      | some (k, s2) =>
        match parseLit closeBraces s2 with
        | some s3 => some (Command.Remove k, s3)
        | none => none
      | none => none
    | none => none

/-- Decoding of an exactly delimited record, as `serde_json::from_reader` on
a `take(len)`-limited reader does in `KvStore::get`: the bytes must decode
as one command with nothing left over. -/
def decodeExact (s : List Char) : Option Command :=
  match decodeOneCommand s with
  | some (c, []) => some c
  | _ => none

/-- Decimal digit characters of a natural number, most significant first,
as Rust's `format!` prints it.  Defined with explicit fuel so that the
definition is structurally recursive; `decDigitsAux fuel n` is meaningful
whenever `n < fuel`. -/
def decDigitsAux : Nat → Nat → List Char
  | 0, _ => []
  | fuel + 1, n =>
    if n < 10 then [Nat.digitChar n]
    else decDigitsAux fuel (n / 10) ++ [Nat.digitChar (n % 10)]

def decDigits (n : Nat) : List Char := decDigitsAux (n + 1) n

/-- Numeric value of a digit string, as accumulated left to right. -/
def digitsValFrom (a : Nat) (cs : List Char) : Nat :=
  cs.foldl (fun a c => a * 10 + (c.toNat - 48)) a

def digitsVal (cs : List Char) : Nat := digitsValFrom 0 cs

/-- The digit block of `format!("{:016}", gen)`: the decimal digits padded
to width 16 with leading zeros (longer numbers print in full). -/
def pad16 (n : Nat) : List Char :=
  List.replicate (16 - (decDigits n).length) '0' ++ decDigits n

/-- The `.log` suffix of segment file names. -/
def logExt : List Char := ['.', 'l', 'o', 'g']

/-- The `log_path` function of kv.rs: the file name
`format!("{:016}.log", gen)` (the directory prefix is implicit in the
model). -/
def genFileName (gen : Nat) : String := String.mk (pad16 gen ++ logExt)

/-- The text after the last dot of a character list, or `none` if it has no
dot. -/
def extCore : List Char → Option (List Char)
  | [] => none
  | c :: rest =>
    if c = '.' then
      match extCore rest with
      | some e => some e
      | none => some rest
    else extCore rest

/-- Rust's `Path::extension` of a file name: the portion after the last dot that is
not in leading position; `none` when there is no such dot (so a leading-dot
name with no other dot has no extension, as in Rust). -/
def pathExtension : List Char → Option (List Char)
  | [] => none
  | _ :: rest => extCore rest

/-- Rust's `str::trim_end_matches(".log")`: repeatedly strip that suffix.  Defined
with fuel equal to the string length, which always suffices since each strip
removes four characters. -/
def trimEndAux : Nat → List Char → List Char
  | 0, s => s
  | fuel + 1, s =>
    if s.drop (s.length - 4) = logExt then trimEndAux fuel (s.take (s.length - 4))
    else s

def trimEndLog (s : List Char) : List Char := trimEndAux s.length s

def isDigitChar (c : Char) : Bool := decide ('0' ≤ c) && decide (c ≤ '9')

/-- Rust's `str::parse::<u64>` as used on segment file stems: an optional leading
plus sign followed by one or more ASCII digits (the `u64` range check is not
modelled; generations are unbounded naturals in the model). -/
def parseU64 (s : List Char) : Option Nat :=
  let t := if s.head? = some '+' then s.tail else s
  if t = [] then none
  else if t.all isDigitChar then some (digitsVal t) else none

/-- The per-file step of `sorted_gen_list`: keep files whose extension is
`log`, strip every trailing `.log`, and parse the stem as an integer,
skipping files where the parse fails. -/
def parseGenName (name : List Char) : Option Nat :=
  if pathExtension name = some ['l', 'o', 'g'] then parseU64 (trimEndLog name)
  else none

/-- The `sorted_gen_list` function of kv.rs: parse every directory entry
name and sort the resulting generation numbers ascending. -/
def sortedGenList (d : Dir) : List Nat :=
  List.insertionSort (· ≤ ·)
    ((d.map Prod.fst).filterMap (fun name => parseGenName name.data))

/-- A directory is well formed when its file names are distinct, as in a
real file system. -/
def WFDir (d : Dir) : Prop := (d.map Prod.fst).Nodup

/-- The generation numbers parsed from the directory, in directory order. -/
def rawGens (d : Dir) : List Nat :=
  (d.map Prod.fst).filterMap (fun name => parseGenName name.data)

/-- The maximum of a list of naturals (zero for the empty list). -/
def listMax (l : List Nat) : Nat := l.foldr Nat.max 0

/-- Failure injection for one `set`/`remove` call: `allOk` is the happy
path, `writeFail w` models `serde_json::to_writer` failing after emitting
only the bytes `w`, and `flushFail` models `flush` failing after a complete
buffered write. -/
inductive WriteOutcome : Type
  | allOk
  | writeFail (written : List Char)
  | flushFail
deriving DecidableEq

/-- The `KvStore` struct of kv.rs, together with the directory contents its
open file handles refer to.  `store` is the reader map
(`HashMap<u64, BufReaderWithPos<File>>`), mapping each generation to the
one property of its handle that reads observe: whether the underlying file
descriptor is readable.  Readers made from `File::open` are readable
(`true`); the reader `open` installs for the active generation is made from
`File::create` (kv.rs line 43), which opens the file write-only, so reads
through it fail at the OS level (`false`).  A readable reader sees the
bytes of `dir`, since every read seeks first and every write is flushed.
`logPos` is the tracked position of the active `BufWriterWithPos`, and
`currentGeneration` the active generation.  The `path` field of the Rust
struct is implicit: `dir` is the content of that directory. -/
structure KvStore where
  dir : Dir
  store : List (Nat × Bool)
  index : Index
  logPos : Nat
  currentGeneration : Nat
deriving DecidableEq

/-- Lookup of a generation's reader in the reader map, as
`self.readers.get_mut(&cmd_pos.gen)`: the recorded readability of the
handle, or `none` when no reader was installed for that generation. -/
def readerLookup : List (Nat × Bool) → Nat → Option Bool
  | [], _ => none
  | (g, b) :: t, g' => if g' = g then some b else readerLookup t g'

/-- The `while let` loop of `load` in kv.rs, decoding a stream of commands:
each decoded `Set` inserts `(gen, pos..new_pos)` for its key, each decoded
`Remove` deletes the key (a fatal consistency error if absent, modelling
the `.expect` abort), a decode failure is a corrupt log, and end of input
returns the index.  The fuel argument only bounds recursion depth;
`content.length - pos < fuel` always suffices (see `loadAux_irrel`). -/
def loadAux (gen : Nat) (content : List Char) :
    Nat → Nat → Index → Except KvsError Index
  | 0, _, _ => .error .corruptLog
  | fuel + 1, pos, ix =>
    if content.drop pos = [] then .ok ix
    else
      match decodeOneCommand (content.drop pos) with
      | none => .error .corruptLog
      | some (cmd, rest) =>
        let newPos := content.length - rest.length
        match cmd with
        | .Set k _ =>
          loadAux gen content fuel newPos (alInsert ix k ⟨gen, pos, newPos - pos⟩)
        | .Remove k =>
          if ixContains ix k then loadAux gen content fuel newPos (alErase ix k)
          else .error .replayInconsistency

/-- The `load` function of kv.rs: seek to offset 0 and replay the whole
segment into the index. -/
def load (gen : Nat) (content : List Char) (ix : Index) :
    Except KvsError Index :=
  loadAux gen content (content.length + 1) 0 ix

/-- One generation of the replay loop in `KvStore::open`: `File::open` the
generation's segment (an I/O error if the file does not exist) and `load`
it into the index. -/
def replayStep (d : Dir) (acc : Except KvsError Index) (g : Nat) :
    Except KvsError Index :=
  match acc with
  | .error e => .error e
  | .ok ix =>
    match alLookup d (genFileName g) with
    | none => .error .ioError
    | some content => load g content ix

/-- The full startup replay: all generations in ascending order into a fresh
index. -/
def replayDir (d : Dir) : Except KvsError Index :=
  (sortedGenList d).foldl (replayStep d) (.ok [])

/-- The function `KvStore::open`: list the generations, replay each in
ascending order, retaining one readable `File::open` reader per replayed
generation; compute the next generation as `last + 1` (`1` when none
exist), create and truncate its segment file, and install as that
generation's reader a handle made from `File::create` (kv.rs line 43) —
write-only, recorded as unreadable — before assembling the store. -/
def openStore (d : Dir) : Except KvsError KvStore :=
  match replayDir d with
  | .error e => .error e
  | .ok ix =>
    let gens := sortedGenList d
    let cur := gens.getLast?.getD 0 + 1
    .ok { dir := alInsert d (genFileName cur) []
          store := gens.map (fun g => (g, true)) ++ [(cur, false)]
          index := ix
          logPos := 0
          currentGeneration := cur }

/-- Append bytes to the active segment file through the writer handle. -/
def appendActive (s : KvStore) (bytes : List Char) : Dir :=
  match alLookup s.dir (genFileName s.currentGeneration) with
  | some c => alInsert s.dir (genFileName s.currentGeneration) (c ++ bytes)
  | none => alInsert s.dir (genFileName s.currentGeneration) bytes

/-- The function `KvStore::set` with failure injection: serialize `Set { key, val }`,
append it to the active segment, flush, and only after a successful flush
record `(current_generation, pos..new_pos)` in the index.  On failure the
`?` operator returns early and the index is untouched. -/
def KvStore.setIo (w : WriteOutcome) (s : KvStore) (key val : String) :
    Except KvsError Unit × KvStore :=
  let bytes := encodeCommand (.Set key val)
  let pos := s.logPos
  match w with
  | .allOk =>
    (.ok (), { s with
      dir := appendActive s bytes
      logPos := pos + bytes.length
      index := alInsert s.index key ⟨s.currentGeneration, pos, bytes.length⟩ })
  | .writeFail written =>
    (.error .ioError, { s with
      dir := appendActive s written
      logPos := pos + written.length })
  | .flushFail =>
    (.error .ioError, { s with
      dir := appendActive s bytes
      logPos := pos + bytes.length })

/-- The function `KvStore::set` on the happy path (its only failure sources are I/O). -/
def KvStore.set (s : KvStore) (key val : String) : KvStore :=
  (KvStore.setIo .allOk s key val).2

/-- The function `KvStore::remove` with failure injection: fail with `KeyNotFound` if the
key is absent (checked before any write); otherwise serialize
`Remove { key }`, append, flush, and only then delete the index entry. -/
def KvStore.removeIo (w : WriteOutcome) (s : KvStore) (key : String) :
    Except KvsError Unit × KvStore :=
  if ixContains s.index key then
    let bytes := encodeCommand (.Remove key)
    let pos := s.logPos
    match w with
    | .allOk =>
      (.ok (), { s with
        dir := appendActive s bytes
        logPos := pos + bytes.length
        index := alErase s.index key })
    | .writeFail written =>
      (.error .ioError, { s with
        dir := appendActive s written
        logPos := pos + written.length })
    | .flushFail =>
      (.error .ioError, { s with
        dir := appendActive s bytes
        logPos := pos + bytes.length })
  else (.error .keyNotFound, s)

/-- The function `KvStore::remove` on the happy path. -/
def KvStore.remove (s : KvStore) (key : String) : Except KvsError KvStore :=
  match KvStore.removeIo .allOk s key with
  | (.ok _, s') => .ok s'
  | (.error e, _) => .error e

/-- The function `KvStore::get`: look the key up in the index (`Ok(None)`
if absent); otherwise fetch the reader of the recorded generation (the
`.expect` abort when no reader exists is modelled by `readerMissing`) and
seek to the recorded position (seeking succeeds regardless of the open
mode).  When the reader's handle is readable, read exactly `len` bytes and
require them to decode as a `Set`, whose value is returned
(`UnexpectedCommandType` for a `Remove`).  When the handle was opened
write-only by `File::create` — the active generation's reader — the read
itself fails at the OS level and `get` returns an I/O error. -/
def KvStore.get (s : KvStore) (key : String) : Except KvsError (Option String) :=
  match alLookup s.index key with
  | none => .ok none
  | some cp =>
    match readerLookup s.store cp.gen with
    | none => .error .readerMissing
    | some readable =>
      if readable then
        match alLookup s.dir (genFileName cp.gen) with
        | none => .error .ioError
        | some content =>
          match decodeExact ((content.drop cp.pos).take cp.len) with
          | some (.Set _ v) => .ok (some v)
          | some (.Remove _) => .error .unexpectedCommandType
          | none => .error .corruptLog
      else .error .ioError

/-- Zero or more successful mutating operations applied to a live store. -/
inductive Steps : KvStore → KvStore → Prop
  | refl (s : KvStore) : Steps s s
  | set {s t : KvStore} (k v : String) : Steps s t → Steps s (KvStore.set t k v)
  | remove {s t t' : KvStore} {k : String} :
      Steps s t → KvStore.remove t k = .ok t' → Steps s t'

/-- A store state is reachable when it results from opening a well-formed
directory and performing successful operations. -/
def Reachable (s : KvStore) : Prop :=
  ∃ d s0, WFDir d ∧ openStore d = .ok s0 ∧ Steps s0 s

/-- The internal consistency invariant of a live store: the directory has
distinct file names; the active segment file exists and the writer position
is its length; the reader map holds exactly the generations listed on disk,
each readable except the active generation's write-only `File::create`
handle; the active generation is the largest one on disk; replaying the
directory reproduces the in-memory index exactly; and every index entry
names a generation listed on disk and points at a slice of an existing
segment that decodes to a `Set` of that key. -/
def StoreInv (s : KvStore) : Prop :=
  WFDir s.dir ∧
  (∃ c, alLookup s.dir (genFileName s.currentGeneration) = some c ∧
    c.length = s.logPos) ∧
  s.store = (sortedGenList s.dir).map
    (fun g => (g, g != s.currentGeneration)) ∧
  (∃ pre, sortedGenList s.dir = pre ++ [s.currentGeneration] ∧
    ∀ x ∈ pre, x < s.currentGeneration) ∧
  replayDir s.dir = .ok s.index ∧
  (∀ k cp, alLookup s.index k = some cp → cp.gen ∈ sortedGenList s.dir ∧
    ∃ content v, alLookup s.dir (genFileName cp.gen) = some content ∧
      cp.pos + cp.len ≤ content.length ∧
      decodeExact ((content.drop cp.pos).take cp.len) = some (Command.Set k v))

/-- The store obtained by opening an empty directory; a concrete state used
to instantiate the reachability hypotheses of the main theorems. -/
def demoS0 : KvStore := KvStore.mk [(genFileName 1, [])] [(1, false)] [] 0 1

/-- The store obtained by reopening `demoS0`'s directory. -/
def demoS1 : KvStore :=
  KvStore.mk [(genFileName 2, []), (genFileName 1, [])]
    [(1, true), (2, false)] [] 0 2

/-- The store obtained by reopening the directory of `demoS0` after
`set "a" "1"`: generation 1 holds the one serialized record, is replayed
into the index, and gets a readable reader, while the new active
generation 2 gets the write-only one. -/
def demoS2 : KvStore :=
  KvStore.mk
    [(genFileName 2, []), (genFileName 1, encodeCommand (.Set "a" "1"))]
    [(1, true), (2, false)]
    [("a", ⟨1, 0, (encodeCommand (.Set "a" "1")).length⟩)] 0 2

theorem charOfNat_toNat (c : Char) : Char.ofNat c.toNat = c := by
  apply Char.eq_of_val_eq
  have hv := c.valid
  simp only [Char.ofNat, Char.toNat, hv, dite_true]
  rcases c with ⟨⟨⟨m, hm⟩⟩, hv'⟩
  simp [Char.ofNatAux, UInt32.toNat, BitVec.ofNatLt, BitVec.toNat]

theorem hexVal_digitChar {m : Nat} (h : m < 16) :
    hexVal (Nat.digitChar m) = some m := by
  revert h
  revert m
  decide

theorem parseLit_self : ∀ (lit r : List Char), parseLit lit (lit ++ r) = some r
  | [], _ => rfl
  | l :: ls, r => by
    simpa [parseLit] using parseLit_self ls r

theorem parseLit_eq_append :
    ∀ {lit s r : List Char}, parseLit lit s = some r → s = lit ++ r
  | [], s, r, h => by simpa [parseLit] using h
  | l :: ls, [], r, h => by simp [parseLit] at h
  | l :: ls, c :: cs, r, h => by
    simp only [parseLit] at h
    split at h
    · next heq => simpa [heq] using parseLit_eq_append h
    · exact absurd h (by simp)

/-- Auxiliary, length-bounded form of `parseStringBody_spec`. -/
theorem parseStringBodySpecAux :
    ∀ (n : Nat) (s : List Char) {a r : List Char}, s.length ≤ n →
      parseStringBody s = some (a, r) →
      ∃ x, s = x ++ r ∧ x ≠ [] ∧
        ∀ r', parseStringBody (x ++ r') = some (a, r') := by
  intro n
  induction n with
  | zero =>
    intro s a r hlen h
    have hs : s = [] := List.eq_nil_of_length_eq_zero (Nat.le_zero.mp hlen)
    subst hs
    rw [parseStringBody.eq_def] at h
    simp at h
  | succ n ih =>
    intro s a r hlen h
    rcases s with _ | ⟨c, cs⟩
    · rw [parseStringBody.eq_def] at h
      simp at h
    · rw [parseStringBody.eq_def] at h
      simp only [] at h
      by_cases hq : c = '"'
      · rw [if_pos hq] at h
        simp only [Option.some.injEq, Prod.mk.injEq] at h
        obtain ⟨ha, hr⟩ := h
        subst hq hr
        refine ⟨['"'], rfl, by simp, fun r' => ?_⟩
        rw [parseStringBody.eq_def]
        simp [← ha]
      · rw [if_neg hq] at h
        by_cases hb : c = '\\'
        · rw [if_pos hb] at h
          rcases cs with _ | ⟨e, cs'⟩
          · simp at h
          · simp only [] at h
            by_cases hu : e = 'u'
            · rw [if_pos hu] at h
              rcases cs' with _ | ⟨h1, _ | ⟨h2, _ | ⟨h3, _ | ⟨h4, cs''⟩⟩⟩⟩
              · simp at h
              · simp at h
              · simp at h
              · simp at h
              · simp only [] at h
                rcases hv1 : hexVal h1 with _ | a1
                · rw [hv1] at h; simp at h
                · rw [hv1] at h
                  rcases hv2 : hexVal h2 with _ | a2
                  · rw [hv2] at h; simp at h
                  · rw [hv2] at h
                    rcases hv3 : hexVal h3 with _ | a3
                    · rw [hv3] at h; simp at h
                    · rw [hv3] at h
                      rcases hv4 : hexVal h4 with _ | a4
                      · rw [hv4] at h; simp at h
                      · rw [hv4] at h
                        simp only [] at h
                        split at h
                        · next hval =>
                          rw [Option.map_eq_some'] at h
                          obtain ⟨⟨out, r0⟩, hpsb, hpair⟩ := h
                          simp only [Prod.mk.injEq] at hpair
                          obtain ⟨ha, hr⟩ := hpair
                          subst hr
                          have hlen' : cs''.length ≤ n := by
                            simp only [List.length_cons] at hlen; omega
                          obtain ⟨x, hx, hxne, hext⟩ := ih cs'' hlen' hpsb
                          subst hb hu
                          refine ⟨'\\' :: 'u' :: h1 :: h2 :: h3 :: h4 :: x,
                            by simp [hx], by simp, fun r' => ?_⟩
                          simp only [List.cons_append]
                          rw [parseStringBody.eq_def]
                          simp [hv1, hv2, hv3, hv4, hval, hext r', ← ha]
                        · exact absurd h (by simp)
            · rw [if_neg hu] at h
              rcases hue : unescapeChar e with _ | u
              · rw [hue] at h; simp at h
              · rw [hue] at h
                simp only [] at h
                rw [Option.map_eq_some'] at h
                obtain ⟨⟨out, r0⟩, hpsb, hpair⟩ := h
                simp only [Prod.mk.injEq] at hpair
                obtain ⟨ha, hr⟩ := hpair
                subst hr
                have hlen' : cs'.length ≤ n := by
                  simp only [List.length_cons] at hlen; omega
                obtain ⟨x, hx, hxne, hext⟩ := ih cs' hlen' hpsb
                subst hb
                refine ⟨'\\' :: e :: x, by simp [hx], by simp, fun r' => ?_⟩
                simp only [List.cons_append]
                rw [parseStringBody.eq_def]
                simp [hu, hue, hext r', ← ha]
        · rw [if_neg hb] at h
          by_cases hlt : c.toNat < 32
          · rw [if_pos hlt] at h
            exact absurd h (by simp)
          · rw [if_neg hlt] at h
            rw [Option.map_eq_some'] at h
            obtain ⟨⟨out, r0⟩, hpsb, hpair⟩ := h
            simp only [Prod.mk.injEq] at hpair
            obtain ⟨ha, hr⟩ := hpair
            subst hr
            have hlen' : cs.length ≤ n := by
              simp only [List.length_cons] at hlen; omega
            obtain ⟨x, hx, hxne, hext⟩ := ih cs hlen' hpsb
            refine ⟨c :: x, by simp [hx], by simp, fun r' => ?_⟩
            simp only [List.cons_append]
            rw [parseStringBody.eq_def]
            simp [hq, hb, hlt, hext r', ← ha]

/-- The decoder of a JSON string body is suffix-independent: a successful
parse splits the input at a position determined by the consumed prefix
alone, and re-parses identically with any other suffix attached. -/
theorem parseStringBody_spec {s a r : List Char}
    (h : parseStringBody s = some (a, r)) :
    ∃ x, s = x ++ r ∧ x ≠ [] ∧
      ∀ r', parseStringBody (x ++ r') = some (a, r') :=
  parseStringBodySpecAux s.length s le_rfl h

/-- Decoding inverts escaping, one character at a time. -/
theorem psb_escapeChar (c : Char) (tail : List Char) :
    parseStringBody (escapeChar c ++ tail) =
      (parseStringBody tail).map (fun p => (c :: p.1, p.2)) := by
  by_cases h1 : c = '"'
  · subst h1
    rw [show escapeChar '"' = ['\\', '"'] from rfl]
    simp only [List.cons_append, List.nil_append]
    rw [parseStringBody.eq_def]
    simp [unescapeChar]
  by_cases h2 : c = '\\'
  · subst h2
    rw [show escapeChar '\\' = ['\\', '\\'] from rfl]
    simp only [List.cons_append, List.nil_append]
    rw [parseStringBody.eq_def]
    simp [unescapeChar]
  by_cases h3 : c = '\x08'
  · subst h3
    rw [show escapeChar '\x08' = ['\\', 'b'] from rfl]
    simp only [List.cons_append, List.nil_append]
    rw [parseStringBody.eq_def]
    simp [unescapeChar]
  by_cases h4 : c = '\t'
  · subst h4
    rw [show escapeChar '\t' = ['\\', 't'] from rfl]
    simp only [List.cons_append, List.nil_append]
    rw [parseStringBody.eq_def]
    simp [unescapeChar]
  by_cases h5 : c = '\n'
  · subst h5
    rw [show escapeChar '\n' = ['\\', 'n'] from rfl]
    simp only [List.cons_append, List.nil_append]
    rw [parseStringBody.eq_def]
    simp [unescapeChar]
  by_cases h6 : c = '\x0c'
  · subst h6
    rw [show escapeChar '\x0c' = ['\\', 'f'] from rfl]
    simp only [List.cons_append, List.nil_append]
    rw [parseStringBody.eq_def]
    simp [unescapeChar]
  by_cases h7 : c = '\x0d'
  · subst h7
    rw [show escapeChar '\x0d' = ['\\', 'r'] from rfl]
    simp only [List.cons_append, List.nil_append]
    rw [parseStringBody.eq_def]
    simp [unescapeChar]
  by_cases h8 : c.toNat < 32
  · have hesc : escapeChar c =
        ['\\', 'u', '0', '0', Nat.digitChar (c.toNat / 16), Nat.digitChar (c.toNat % 16)] := by
      simp [escapeChar, h1, h2, h3, h4, h5, h6, h7, h8]
    have h16a : c.toNat / 16 < 16 := by omega
    have h16b : c.toNat % 16 < 16 := by omega
    have hdm : ((0 * 16 + 0) * 16 + c.toNat / 16) * 16 + c.toNat % 16 = c.toNat := by
      omega
    have h0 : hexVal '0' = some 0 := rfl
    rw [hesc]
    simp only [List.cons_append, List.nil_append]
    rw [parseStringBody.eq_def]
    simp only [h0, hexVal_digitChar h16a, hexVal_digitChar h16b]
    have hdm2 : c.toNat / 16 * 16 + c.toNat % 16 = c.toNat := by omega
    simp only [Nat.zero_mul, Nat.zero_add, Nat.add_zero, hdm2]
    rw [if_pos (Or.inl (show c.toNat < 55296 from by omega)), charOfNat_toNat]
    simp
  · have hesc : escapeChar c = [c] := by
      simp [escapeChar, h1, h2, h3, h4, h5, h6, h7, h8]
    rw [hesc]
    simp only [List.cons_append, List.nil_append]
    rw [parseStringBody.eq_def]
    simp [h1, h2, h8]

/-- Decoding inverts escaping of a whole string body. -/
theorem psb_escapeList (cs : List Char) (r : List Char) :
    parseStringBody (escapeList cs ++ ('"' :: r)) = some (cs, r) := by
  induction cs with
  | nil =>
    simp only [escapeList, List.nil_append]
    rw [parseStringBody.eq_def]
    simp
  | cons c cs ih =>
    simp only [escapeList, List.append_assoc]
    rw [psb_escapeChar c (escapeList cs ++ ('"' :: r)), ih]
    rfl

theorem stringMk_data (s : String) : String.mk s.data = s := by
  cases s
  rfl

/-- Decoding a JSON string literal inverts encoding, with any suffix. -/
theorem parseJsonString_encode (s : String) (r : List Char) :
    parseJsonString (encodeJsonString s ++ r) = some (s, r) := by
  show parseJsonString ('"' :: (escapeList s.data ++ ['"'] ++ r)) = some (s, r)
  rw [parseJsonString.eq_def]
  simp only [List.append_assoc, List.singleton_append, if_pos rfl]
  rw [psb_escapeList s.data r]
  simp [stringMk_data]

/-- A successful JSON string parse is suffix-independent. -/
theorem parseJsonString_spec {s : List Char} {a : String} {r : List Char}
    (h : parseJsonString s = some (a, r)) :
    ∃ x, s = x ++ r ∧ x ≠ [] ∧
      ∀ r', parseJsonString (x ++ r') = some (a, r') := by
  rcases s with _ | ⟨c, cs⟩
  · rw [parseJsonString.eq_def] at h
    simp at h
  · rw [parseJsonString.eq_def] at h
    simp only [] at h
    by_cases hq : c = '"'
    · rw [if_pos hq] at h
      rcases hpsb : parseStringBody cs with _ | ⟨out, r0⟩
      · rw [hpsb] at h
        simp at h
      · rw [hpsb] at h
        simp only [Option.some.injEq, Prod.mk.injEq] at h
        obtain ⟨ha, hr⟩ := h
        subst hq hr
        obtain ⟨x, hx, hxne, hext⟩ := parseStringBody_spec hpsb
        refine ⟨'"' :: x, by simp [hx], by simp, fun r' => ?_⟩
        rw [List.cons_append, parseJsonString.eq_def]
        simp only [if_pos rfl]
        rw [hext r']
        simp [← ha]
    · rw [if_neg hq] at h
      simp at h

/-- The serialized form of a Set never parses as a Remove header and vice
versa: the two literal prefixes differ at their third character. -/
theorem parseLit_setPre_removePre (t : List Char) :
    parseLit setPre (removePre ++ t) = none := by
  simp [setPre, removePre, parseLit, lbrace]

/-- A successful one-command decode is suffix-independent: the consumed
prefix is determined, nonempty, and re-decodes identically with any other
suffix attached. -/
theorem decodeOneCommand_spec {s : List Char} {c : Command} {r : List Char}
    (h : decodeOneCommand s = some (c, r)) :
    ∃ x, s = x ++ r ∧ x ≠ [] ∧
      ∀ r', decodeOneCommand (x ++ r') = some (c, r') := by
  unfold decodeOneCommand at h
  rcases hps : parseLit setPre s with _ | s1 <;> rw [hps] at h <;>
    (try simp only [] at h)
  · rcases hpr : parseLit removePre s with _ | s1 <;> rw [hpr] at h <;>
      (try simp only [] at h)
    · simp at h
    · rcases hk : parseJsonString s1 with _ | ⟨k, s2⟩ <;> rw [hk] at h <;>
        (try simp only [] at h)
      · simp at h
      · rcases hcb : parseLit closeBraces s2 with _ | s3 <;> rw [hcb] at h <;>
          (try simp only [] at h)
        · simp at h
        · simp only [Option.some.injEq, Prod.mk.injEq] at h
          obtain ⟨hc, hr⟩ := h
          subst hc hr
          have e1 : s = removePre ++ s1 := parseLit_eq_append hpr
          obtain ⟨x2, hx2, hx2ne, hext2⟩ := parseJsonString_spec hk
          have e3 : s2 = closeBraces ++ s3 := parseLit_eq_append hcb
          refine ⟨removePre ++ x2 ++ closeBraces, ?_, by simp [removePre], fun r' => ?_⟩
          · rw [e1, hx2, e3]
            simp [List.append_assoc]
          · have hx : (removePre ++ x2 ++ closeBraces) ++ r' =
                removePre ++ (x2 ++ (closeBraces ++ r')) := by
              simp [List.append_assoc]
            rw [hx]
            unfold decodeOneCommand
            rw [parseLit_setPre_removePre, parseLit_self]
            simp only []
            rw [hext2 (closeBraces ++ r')]
            simp only []
            rw [parseLit_self]
  · rcases hk : parseJsonString s1 with _ | ⟨k, s2⟩ <;> rw [hk] at h <;>
      (try simp only [] at h)
    · simp at h
    · rcases hvs : parseLit valueSep s2 with _ | s3 <;> rw [hvs] at h <;>
        (try simp only [] at h)
      · simp at h
      · rcases hv : parseJsonString s3 with _ | ⟨v, s4⟩ <;> rw [hv] at h <;>
          (try simp only [] at h)
        · simp at h
        · rcases hcb : parseLit closeBraces s4 with _ | s5 <;> rw [hcb] at h <;>
            (try simp only [] at h)
          · simp at h
          · simp only [Option.some.injEq, Prod.mk.injEq] at h
            obtain ⟨hc, hr⟩ := h
            subst hc hr
            have e1 : s = setPre ++ s1 := parseLit_eq_append hps
            obtain ⟨x2, hx2, hx2ne, hext2⟩ := parseJsonString_spec hk
            have e3 : s2 = valueSep ++ s3 := parseLit_eq_append hvs
            obtain ⟨x4, hx4, hx4ne, hext4⟩ := parseJsonString_spec hv
            have e5 : s4 = closeBraces ++ s5 := parseLit_eq_append hcb
            refine ⟨setPre ++ x2 ++ valueSep ++ x4 ++ closeBraces, ?_,
              by simp [setPre], fun r' => ?_⟩
            · rw [e1, hx2, e3, hx4, e5]
              simp [List.append_assoc]
            · have hx : (setPre ++ x2 ++ valueSep ++ x4 ++ closeBraces) ++ r' =
                  setPre ++ (x2 ++ (valueSep ++ (x4 ++ (closeBraces ++ r')))) := by
                simp [List.append_assoc]
              rw [hx]
              unfold decodeOneCommand
              rw [parseLit_self]
              simp only []
              rw [hext2 (valueSep ++ (x4 ++ (closeBraces ++ r')))]
              simp only []
              rw [parseLit_self]
              simp only []
              rw [hext4 (closeBraces ++ r')]
              simp only []
              rw [parseLit_self]

/-- Decoding inverts `encodeCommand`, with any suffix attached. -/
theorem decodeOneCommand_encode (c : Command) (r : List Char) :
    decodeOneCommand (encodeCommand c ++ r) = some (c, r) := by
  cases c with
  | Set k v =>
    have hx : encodeCommand (.Set k v) ++ r =
        setPre ++ (encodeJsonString k ++ (valueSep ++ (encodeJsonString v ++ (closeBraces ++ r)))) := by
      simp [encodeCommand, List.append_assoc]
    rw [hx]
    unfold decodeOneCommand
    rw [parseLit_self]
    simp only []
    rw [parseJsonString_encode]
    simp only []
    rw [parseLit_self]
    simp only []
    rw [parseJsonString_encode]
    simp only []
    rw [parseLit_self]
  | Remove k =>
    have hx : encodeCommand (.Remove k) ++ r =
        removePre ++ (encodeJsonString k ++ (closeBraces ++ r)) := by
      simp [encodeCommand, List.append_assoc]
    rw [hx]
    unfold decodeOneCommand
    rw [parseLit_setPre_removePre, parseLit_self]
    simp only []
    rw [parseJsonString_encode]
    simp only []
    rw [parseLit_self]

/-- Progress: a successful decode consumes at least one character. -/
theorem decodeOneCommand_length {s : List Char} {c : Command} {r : List Char}
    (h : decodeOneCommand s = some (c, r)) : r.length < s.length := by
  obtain ⟨x, hx, hxne, _⟩ := decodeOneCommand_spec h
  subst hx
  have : 0 < x.length := List.length_pos.mpr hxne
  simp [List.length_append]
  omega

theorem decodeExact_encode (c : Command) :
    decodeExact (encodeCommand c) = some c := by
  unfold decodeExact
  have h := decodeOneCommand_encode c []
  rw [List.append_nil] at h
  rw [h]

/-- The consumed prefix of a successful stream decode, cut out of the
stream, decodes exactly to the same command. -/
theorem decodeOneCommand_take {s : List Char} {c : Command} {r : List Char}
    (h : decodeOneCommand s = some (c, r)) :
    decodeExact (List.take (s.length - r.length) s) = some c := by
  obtain ⟨x, hx, hxne, hext⟩ := decodeOneCommand_spec h
  subst hx
  have hlen : (x ++ r).length - r.length = x.length := by simp
  rw [hlen, List.take_left]
  unfold decodeExact
  have h0 := hext []
  rw [List.append_nil] at h0
  rw [h0]

theorem decDigitsAux_irrel :
    ∀ (f g n : Nat), n < f → n < g → decDigitsAux f n = decDigitsAux g n := by
  intro f
  induction f with
  | zero => intro g n h; omega
  | succ f ih =>
    intro g n hf hg
    match g, hg with
    | g + 1, _ =>
      simp only [decDigitsAux]
      by_cases h10 : n < 10
      · simp [h10]
      · rw [if_neg h10, if_neg h10, ih g (n / 10) (by omega) (by omega)]

/-- The recursion equation of `decDigits` with the fuel eliminated. -/
theorem decDigits_eq (n : Nat) :
    decDigits n =
      if n < 10 then [Nat.digitChar n]
      else decDigits (n / 10) ++ [Nat.digitChar (n % 10)] := by
  show decDigitsAux (n + 1) n = _
  rw [decDigitsAux]
  by_cases h10 : n < 10
  · simp [h10]
  · rw [if_neg h10, if_neg h10,
      decDigitsAux_irrel n (n / 10 + 1) (n / 10) (by omega) (by omega)]
    rfl

theorem decDigits_ne_nil (n : Nat) : decDigits n ≠ [] := by
  rw [decDigits_eq]
  by_cases h10 : n < 10
  · simp [h10]
  · simp [h10]

theorem digitChar_range {m : Nat} (h : m < 10) :
    '0' ≤ Nat.digitChar m ∧ Nat.digitChar m ≤ '9' := by
  revert h; revert m; decide

theorem decDigits_digits (n : Nat) :
    ∀ c ∈ decDigits n, '0' ≤ c ∧ c ≤ '9' := by
  induction n using Nat.strong_induction_on with
  | _ n ih =>
    rw [decDigits_eq]
    by_cases h10 : n < 10
    · rw [if_pos h10]
      intro c hc
      simp only [List.mem_singleton] at hc
      subst hc
      exact digitChar_range h10
    · rw [if_neg h10]
      intro c hc
      rcases List.mem_append.mp hc with hm | hm
      · exact ih (n / 10) (by omega) c hm
      · simp only [List.mem_singleton] at hm
        subst hm
        exact digitChar_range (by omega)

theorem digitChar_pos {m : Nat} (h1 : 1 ≤ m) (h2 : m < 10) :
    '0' < Nat.digitChar m ∧ Nat.digitChar m ≤ '9' := by
  revert h1 h2; revert m; decide

theorem decDigits_head (n : Nat) (hn : 1 ≤ n) :
    ∃ c t, decDigits n = c :: t ∧ '0' < c ∧ c ≤ '9' := by
  induction n using Nat.strong_induction_on with
  | _ n ih =>
    rw [decDigits_eq]
    by_cases h10 : n < 10
    · rw [if_pos h10]
      exact ⟨Nat.digitChar n, [], rfl, digitChar_pos hn h10⟩
    · rw [if_neg h10]
      obtain ⟨c, t, hct, hc⟩ := ih (n / 10) (by omega) (by omega)
      exact ⟨c, t ++ [Nat.digitChar (n % 10)], by rw [hct]; rfl, hc⟩

/-- Digit-count characterization: `decDigits n` fits in `k ≥ 1` places iff
`n < 10 ^ k`. -/
theorem decDigits_length_le_iff :
    ∀ (k n : Nat), 1 ≤ k → ((decDigits n).length ≤ k ↔ n < 10 ^ k) := by
  intro k
  induction k with
  | zero => intro n h; omega
  | succ k ih =>
    intro n _
    rw [decDigits_eq]
    by_cases h10 : n < 10
    · rw [if_pos h10]
      simp only [List.length_singleton]
      have h2 : (10:Nat) ≤ 10 ^ (k + 1) := by
        calc (10:Nat) = 10 ^ 1 := by norm_num
        _ ≤ 10 ^ (k + 1) := Nat.pow_le_pow_right (by omega) (by omega)
      omega
    · rw [if_neg h10]
      rcases Nat.eq_zero_or_pos k with hk | hk
      · subst hk
        have h1 : 1 ≤ (decDigits (n / 10)).length :=
          List.length_pos.mpr (decDigits_ne_nil _)
        have h2 : (10:Nat) ^ (0 + 1) = 10 := by norm_num
        simp only [List.length_append, List.length_singleton]
        omega
      · have hiff := ih (n / 10) hk
        have h2 : (10:Nat) ^ (k + 1) = 10 * 10 ^ k := by ring
        simp only [List.length_append, List.length_singleton]
        constructor
        · intro h
          have hd : n / 10 < 10 ^ k := hiff.mp (by omega)
          omega
        · intro h
          have hd : n / 10 < 10 ^ k := by omega
          have := hiff.mpr hd
          omega

theorem digitsValFrom_append (a : Nat) (xs ys : List Char) :
    digitsValFrom a (xs ++ ys) = digitsValFrom (digitsValFrom a xs) ys :=
  List.foldl_append ..

theorem digitChar_toNat {m : Nat} (h : m < 10) :
    (Nat.digitChar m).toNat - 48 = m := by
  revert h; revert m; decide

theorem digitsValFrom_decDigits (n : Nat) :
    ∀ a, digitsValFrom a (decDigits n) = a * 10 ^ (decDigits n).length + n := by
  induction n using Nat.strong_induction_on with
  | _ n ih =>
    intro a
    rw [decDigits_eq]
    by_cases h10 : n < 10
    · rw [if_pos h10]
      simp [digitsValFrom, digitChar_toNat h10]
    · rw [if_neg h10]
      rw [digitsValFrom_append, ih (n / 10) (by omega)]
      simp only [digitsValFrom, List.foldl_cons, List.foldl_nil,
        List.length_append, List.length_singleton]
      rw [digitChar_toNat (show n % 10 < 10 from by omega)]
      have : a * 10 ^ ((decDigits (n / 10)).length + 1) =
          a * 10 ^ (decDigits (n / 10)).length * 10 := by ring
      rw [this]
      omega

theorem digitsVal_decDigits (n : Nat) : digitsVal (decDigits n) = n := by
  have := digitsValFrom_decDigits n 0
  simpa [digitsVal] using this

theorem digitsVal_replicate_zero_append (j : Nat) (ds : List Char) :
    digitsVal (List.replicate j '0' ++ ds) = digitsVal ds := by
  rw [digitsVal, digitsValFrom_append]
  have hz : digitsValFrom 0 (List.replicate j '0') = 0 := by
    induction j with
    | zero => rfl
    | succ j ihj => simpa [List.replicate_succ, digitsValFrom] using ihj
  rw [hz]
  rfl

theorem pad16_digits (n : Nat) : ∀ c ∈ pad16 n, '0' ≤ c ∧ c ≤ '9' := by
  intro c hc
  rcases List.mem_append.mp hc with hm | hm
  · have := List.eq_of_mem_replicate hm
    subst this
    decide
  · exact decDigits_digits n c hm

theorem pad16_ne_nil (n : Nat) : pad16 n ≠ [] := by
  intro h
  have h1 : 1 ≤ (decDigits n).length := List.length_pos.mpr (decDigits_ne_nil _)
  have h2 := congrArg List.length h
  simp only [pad16, List.length_append, List.length_replicate,
    List.length_nil] at h2
  omega

theorem dot_not_mem_pad16 (n : Nat) : '.' ∉ pad16 n := by
  intro h
  have := pad16_digits n '.' h
  revert this
  decide

theorem digitsVal_pad16 (n : Nat) : digitsVal (pad16 n) = n := by
  rw [pad16, digitsVal_replicate_zero_append, digitsVal_decDigits]

theorem extCore_no_dot {xs : List Char} (h : '.' ∉ xs) : extCore xs = none := by
  induction xs with
  | nil => rfl
  | cons c cs ih =>
    rw [extCore.eq_def]
    simp only []
    rw [if_neg (by intro hc; exact h (hc ▸ List.mem_cons_self c cs))]
    exact ih (fun hm => h (List.mem_cons_of_mem c hm))

theorem extCore_append_dot {xs ys : List Char} (hx : '.' ∉ xs) (hy : '.' ∉ ys) :
    extCore (xs ++ '.' :: ys) = some ys := by
  induction xs with
  | nil =>
    rw [List.nil_append, extCore.eq_def]
    simp [extCore_no_dot hy]
  | cons c cs ih =>
    rw [List.cons_append, extCore.eq_def]
    simp only []
    rw [if_neg (by intro hc; exact hx (hc ▸ List.mem_cons_self c cs))]
    exact ih (fun hm => hx (List.mem_cons_of_mem c hm))

theorem pathExtension_genFileName (n : Nat) :
    pathExtension (pad16 n ++ logExt) = some ['l', 'o', 'g'] := by
  have hd := dot_not_mem_pad16 n
  rcases hp : pad16 n with _ | ⟨c, rest⟩
  · exact absurd hp (pad16_ne_nil n)
  · rw [hp] at hd
    rw [List.cons_append]
    show extCore (rest ++ logExt) = some ['l', 'o', 'g']
    show extCore (rest ++ '.' :: ['l', 'o', 'g']) = some ['l', 'o', 'g']
    exact extCore_append_dot
      (fun hm => hd (List.mem_cons_of_mem c hm)) (by decide)

theorem trimEndAux_no_dot {s : List Char} (h : '.' ∉ s) :
    ∀ fuel, trimEndAux fuel s = s := by
  intro fuel
  cases fuel with
  | zero => rfl
  | succ fuel =>
    rw [trimEndAux]
    rw [if_neg]
    intro hc
    have : '.' ∈ s.drop (s.length - 4) := by rw [hc]; decide
    exact h (List.mem_of_mem_drop this)

theorem trimEndLog_pad16 (n : Nat) :
    trimEndLog (pad16 n ++ logExt) = pad16 n := by
  have hlen : (pad16 n ++ logExt).length = (pad16 n).length + 4 := by
    simp [logExt]
  have hpos : 1 ≤ (pad16 n).length :=
    List.length_pos.mpr (pad16_ne_nil n)
  show trimEndAux (pad16 n ++ logExt).length (pad16 n ++ logExt) = pad16 n
  rw [hlen]
  have h4 : (pad16 n).length + 4 = ((pad16 n).length + 3) + 1 := by omega
  rw [h4, trimEndAux]
  rw [if_pos]
  · have ht : (pad16 n ++ logExt).length - 4 = (pad16 n).length := by
      rw [hlen]; omega
    rw [ht, List.take_left]
    exact trimEndAux_no_dot (dot_not_mem_pad16 n) _
  · have ht : (pad16 n ++ logExt).length - 4 = (pad16 n).length := by
      rw [hlen]; omega
    rw [ht, List.drop_left]

theorem parseU64_pad16 (n : Nat) : parseU64 (pad16 n) = some n := by
  rcases hp : pad16 n with _ | ⟨c, rest⟩
  · exact absurd hp (pad16_ne_nil n)
  · have hdig : (c :: rest).all isDigitChar = true := by
      rw [← hp]
      refine List.all_eq_true.mpr ?_
      intro x hx
      have := pad16_digits n x hx
      simp [isDigitChar, this.1, this.2]
    have hcr : '0' ≤ c ∧ c ≤ '9' :=
      pad16_digits n c (by rw [hp]; exact List.mem_cons_self c rest)
    have hne : (c = '+') = False := by
      simp only [eq_iff_iff, iff_false]
      intro hcc
      subst hcc
      revert hcr
      decide
    have hv : digitsVal (c :: rest) = n := by rw [← hp, digitsVal_pad16]
    show parseU64 (c :: rest) = some n
    unfold parseU64
    simp only [List.head?_cons, List.tail_cons, Option.some.injEq, hne,
      if_false]
    rw [if_neg (by simp), if_pos hdig, hv]

theorem parseGenName_genFileName (g : Nat) :
    parseGenName (genFileName g).data = some g := by
  show parseGenName (pad16 g ++ logExt) = some g
  unfold parseGenName
  rw [pathExtension_genFileName, if_pos rfl, trimEndLog_pad16, parseU64_pad16]

theorem genFileName_inj {a b : Nat} (h : genFileName a = genFileName b) :
    a = b := by
  have hdata : pad16 a ++ logExt = pad16 b ++ logExt := by
    have := congrArg String.data h
    simpa [genFileName] using this
  have hp : pad16 a = pad16 b := by
    have hlen : (pad16 a).length = (pad16 b).length := by
      have := congrArg List.length hdata
      simp [logExt] at this
      omega
    exact List.append_inj_left hdata hlen
  have := congrArg digitsVal hp
  rwa [digitsVal_pad16, digitsVal_pad16] at this

theorem lexLt_append {xs ys : List Char} (h : List.Lex (· < ·) xs ys)
    (hlen : xs.length = ys.length) (t u : List Char) :
    List.Lex (· < ·) (xs ++ t) (ys ++ u) := by
  induction h with
  | nil => simp at hlen
  | rel hab => exact List.Lex.rel hab
  | cons hlt ih =>
    simp only [List.length_cons, Nat.add_right_cancel_iff] at hlen
    exact List.Lex.cons (ih hlen)

theorem lexLt_append_left (xs : List Char) {t u : List Char}
    (h : List.Lex (· < ·) t u) : List.Lex (· < ·) (xs ++ t) (xs ++ u) := by
  induction xs with
  | nil => simpa using h
  | cons x xs ih => exact List.Lex.cons ih

theorem digitChar_lt : ∀ n < 10, ∀ m < 10,
    n < m → Nat.digitChar n < Nat.digitChar m := by decide

/-- Same digit count and smaller value gives lexicographically smaller digit
strings. -/
theorem decDigits_lt :
    ∀ m n, n < m → (decDigits n).length = (decDigits m).length →
      List.Lex (· < ·) (decDigits n) (decDigits m) := by
  intro m
  induction m using Nat.strong_induction_on with
  | _ m ih =>
    intro n hnm hlen
    by_cases hm10 : m < 10
    · have hn10 : n < 10 := by omega
      rw [decDigits_eq, if_pos hn10, decDigits_eq m, if_pos hm10]
      exact List.Lex.rel (digitChar_lt n hn10 m hm10 hnm)
    · by_cases hn10 : n < 10
      · exfalso
        rw [decDigits_eq, if_pos hn10, decDigits_eq m, if_neg hm10] at hlen
        have h1 : 1 ≤ (decDigits (m / 10)).length :=
          List.length_pos.mpr (decDigits_ne_nil _)
        simp only [List.length_singleton, List.length_append] at hlen
        omega
      · rw [decDigits_eq, if_neg hn10, decDigits_eq m, if_neg hm10]
        rw [decDigits_eq, if_neg hn10, decDigits_eq m, if_neg hm10] at hlen
        simp only [List.length_append, List.length_singleton] at hlen
        have hlen' : (decDigits (n / 10)).length = (decDigits (m / 10)).length := by
          omega
        have hsplit : n / 10 < m / 10 ∨ (n / 10 = m / 10 ∧ n % 10 < m % 10) := by
          omega
        rcases hsplit with hd | ⟨hd, hr⟩
        · exact lexLt_append (ih (m / 10) (by omega) (n / 10) hd hlen') hlen' _ _
        · rw [hd]
          exact lexLt_append_left _
            (List.Lex.rel (digitChar_lt _ (by omega) _ (by omega) hr))

theorem pad16_length {n : Nat} (h : n < 10 ^ 16) : (pad16 n).length = 16 := by
  have hle : (decDigits n).length ≤ 16 :=
    (decDigits_length_le_iff 16 n (by omega)).mpr h
  simp only [pad16, List.length_append, List.length_replicate]
  omega

/-- For generations below `10 ^ 16` the zero padding aligns the digit
blocks, so numeric order gives lexicographic order. -/
theorem pad16_lt {n m : Nat} (h : n < m) (hm : m < 10 ^ 16) :
    List.Lex (· < ·) (pad16 n) (pad16 m) := by
  have hn16 : n < 10 ^ 16 := by omega
  have hlm : (decDigits m).length ≤ 16 :=
    (decDigits_length_le_iff 16 m (by omega)).mpr hm
  have hln : (decDigits n).length ≤ 16 :=
    (decDigits_length_le_iff 16 n (by omega)).mpr hn16
  have h1m : 1 ≤ (decDigits m).length := List.length_pos.mpr (decDigits_ne_nil _)
  have h1n : 1 ≤ (decDigits n).length := List.length_pos.mpr (decDigits_ne_nil _)
  have hmono : (decDigits n).length ≤ (decDigits m).length := by
    by_contra hcon
    have hmm : m < 10 ^ (decDigits m).length :=
      (decDigits_length_le_iff _ m h1m).mp le_rfl
    have hnn : ¬ n < 10 ^ (decDigits m).length := by
      intro hlt
      exact hcon ((decDigits_length_le_iff _ n h1m).mpr hlt)
    omega
  rcases Nat.lt_or_ge (decDigits n).length (decDigits m).length with hlt | hge
  · -- strictly fewer digits: the extra leading zero wins against the
    -- nonzero leading digit of `m`
    obtain ⟨c, t, hct, hc0, _⟩ := decDigits_head m (by omega)
    have hsplit : 16 - (decDigits n).length =
        (16 - (decDigits m).length) + ((decDigits m).length - (decDigits n).length) := by
      omega
    unfold pad16
    rw [hsplit, List.replicate_add, List.append_assoc]
    apply lexLt_append_left
    have hpos : 1 ≤ (decDigits m).length - (decDigits n).length := by omega
    have hrep : (decDigits m).length - (decDigits n).length =
        1 + ((decDigits m).length - (decDigits n).length - 1) := by omega
    rw [hrep, List.replicate_add, hct]
    simp only [List.replicate_one, List.cons_append, List.singleton_append]
    exact List.Lex.rel hc0
  · have heq : (decDigits n).length = (decDigits m).length := by omega
    unfold pad16
    rw [heq]
    exact lexLt_append_left _ (decDigits_lt m n h heq)

/-- Numeric order of generations below `10 ^ 16` gives lexicographic order
of the file names `log_path` produces. -/
theorem genFileName_lt {n m : Nat} (h : n < m) (hm : m < 10 ^ 16) :
    genFileName n < genFileName m := by
  rw [String.lt_iff_toList_lt]
  show List.Lex (· < ·) (pad16 n ++ logExt) (pad16 m ++ logExt)
  exact lexLt_append (pad16_lt h hm)
    (by rw [pad16_length (by omega), pad16_length hm]) _ _

theorem alLookup_insert_self {β : Type} (l : List (String × β)) (k : String) (v : β) :
    alLookup (alInsert l k v) k = some v := by
  simp [alInsert, alLookup]

theorem alLookup_erase_ne {β : Type} (l : List (String × β)) {k k' : String}
    (h : k' ≠ k) : alLookup (alErase l k) k' = alLookup l k' := by
  induction l with
  | nil => rfl
  | cons p rest ih =>
    obtain ⟨pk, pv⟩ := p
    rw [alErase]
    by_cases hp : pk = k
    · rw [if_pos hp, alLookup, if_neg (by rw [hp]; exact fun he => h he.symm), ih]
    · rw [if_neg hp, alLookup, alLookup]
      by_cases hp' : pk = k'
      · rw [if_pos hp', if_pos hp']
      · rw [if_neg hp', if_neg hp', ih]

theorem alLookup_erase_self {β : Type} (l : List (String × β)) (k : String) :
    alLookup (alErase l k) k = none := by
  induction l with
  | nil => rfl
  | cons p rest ih =>
    obtain ⟨pk, pv⟩ := p
    rw [alErase]
    by_cases hp : pk = k
    · rw [if_pos hp]; exact ih
    · rw [if_neg hp, alLookup, if_neg hp]; exact ih

theorem alLookup_insert_ne {β : Type} (l : List (String × β)) {k k' : String}
    (v : β) (h : k' ≠ k) : alLookup (alInsert l k v) k' = alLookup l k' := by
  rw [alInsert, alLookup, if_neg (fun he => h he.symm), alLookup_erase_ne l h]

theorem alLookup_mem {β : Type} {l : List (String × β)} {k : String} {v : β}
    (h : alLookup l k = some v) : (k, v) ∈ l := by
  induction l with
  | nil => simp [alLookup] at h
  | cons p rest ih =>
    obtain ⟨pk, pv⟩ := p
    rw [alLookup] at h
    by_cases hp : pk = k
    · rw [if_pos hp] at h
      injection h with h
      subst hp h
      exact List.mem_cons_self _ _
    · rw [if_neg hp] at h
      exact List.mem_cons_of_mem _ (ih h)

theorem alErase_map_fst {β : Type} (l : List (String × β)) (k : String) :
    (alErase l k).map Prod.fst = (l.map Prod.fst).filter (fun n => n ≠ k) := by
  induction l with
  | nil => rfl
  | cons p rest ih =>
    obtain ⟨pk, pv⟩ := p
    rw [alErase]
    by_cases hp : pk = k
    · rw [if_pos hp]
      simp [hp, ih]
    · rw [if_neg hp]
      simp [hp, ih]

theorem alErase_of_not_mem {β : Type} {l : List (String × β)} {k : String}
    (h : k ∉ l.map Prod.fst) : alErase l k = l := by
  induction l with
  | nil => rfl
  | cons p rest ih =>
    obtain ⟨pk, pv⟩ := p
    simp only [List.map_cons, List.mem_cons] at h
    push_neg at h
    rw [alErase, if_neg (fun he => h.1 he.symm), ih h.2]

theorem alInsert_map_fst {β : Type} (l : List (String × β)) (k : String) (v : β) :
    (alInsert l k v).map Prod.fst = k :: (l.map Prod.fst).filter (fun n => n ≠ k) := by
  rw [alInsert, List.map_cons, alErase_map_fst]

theorem alInsert_wf {β : Type} {l : List (String × β)} (k : String) (v : β)
    (h : l.map (Prod.fst) |>.Nodup) :
    ((alInsert l k v).map Prod.fst).Nodup := by
  rw [alInsert_map_fst]
  refine List.Nodup.cons ?_ (h.filter _)
  intro hmem
  have := List.of_mem_filter hmem
  simp at this

theorem alInsert_names_perm {β : Type} {l : List (String × β)} {k : String}
    (v : β) (hnd : (l.map Prod.fst).Nodup) (hmem : k ∈ l.map Prod.fst) :
    ((alInsert l k v).map Prod.fst).Perm (l.map Prod.fst) := by
  rw [alInsert_map_fst]
  have herase : (l.map Prod.fst).filter (fun n => n ≠ k) = (l.map Prod.fst).erase k := by
    rw [List.Nodup.erase_eq_filter hnd]
    apply List.filter_congr
    intro x _
    by_cases hx : x = k <;> simp [hx, bne]
  rw [herase]
  exact (List.perm_cons_erase hmem).symm

theorem alInsert_names_fresh {β : Type} {l : List (String × β)} {k : String}
    (v : β) (hmem : k ∉ l.map Prod.fst) :
    (alInsert l k v).map Prod.fst = k :: l.map Prod.fst := by
  rw [alInsert, List.map_cons, alErase_of_not_mem hmem]

theorem sortedGenList_eq (d : Dir) :
    sortedGenList d = List.insertionSort (· ≤ ·) (rawGens d) := rfl

theorem sortedGenList_sorted (d : Dir) :
    List.Sorted (· ≤ ·) (sortedGenList d) :=
  List.sorted_insertionSort _ _

theorem sortedGenList_perm (d : Dir) :
    (sortedGenList d).Perm (rawGens d) :=
  List.perm_insertionSort _ _

theorem sortedGenList_congr {d1 d2 : Dir}
    (h : (d1.map Prod.fst).Perm (d2.map Prod.fst)) :
    sortedGenList d1 = sortedGenList d2 := by
  refine List.eq_of_perm_of_sorted ?_ (sortedGenList_sorted d1) (sortedGenList_sorted d2)
  exact (sortedGenList_perm d1).trans
    ((h.filterMap _).trans (sortedGenList_perm d2).symm)

theorem mem_sortedGenList_of_name {d : Dir} {g : Nat}
    (h : genFileName g ∈ d.map Prod.fst) : g ∈ sortedGenList d :=
  ((sortedGenList_perm d).mem_iff).mpr
    (List.mem_filterMap.mpr ⟨genFileName g, h, parseGenName_genFileName g⟩)

/-- Inserting a file named for a fresh generation larger than all existing
ones appends that generation at the end of the sorted list. -/
theorem sortedGenList_insert_max {d : Dir} {g : Nat} (c : List Char)
    (hnm : genFileName g ∉ d.map Prod.fst)
    (hmax : ∀ x ∈ sortedGenList d, x < g) :
    sortedGenList (alInsert d (genFileName g) c) = sortedGenList d ++ [g] := by
  have hperm : (sortedGenList (alInsert d (genFileName g) c)).Perm
      (sortedGenList d ++ [g]) := by
    have h1 : rawGens (alInsert d (genFileName g) c) = g :: rawGens d := by
      unfold rawGens
      rw [alInsert_names_fresh c hnm, List.filterMap_cons]
      rw [parseGenName_genFileName]
    have h2 : (sortedGenList (alInsert d (genFileName g) c)).Perm
        (g :: rawGens d) := by
      rw [← h1]
      exact sortedGenList_perm _
    have h3 : (g :: rawGens d).Perm (g :: sortedGenList d) :=
      (sortedGenList_perm d).symm.cons g
    have h4 : (g :: sortedGenList d).Perm (sortedGenList d ++ [g]) :=
      (List.perm_append_singleton g _).symm
    exact (h2.trans h3).trans h4
  refine List.eq_of_perm_of_sorted hperm (sortedGenList_sorted _) ?_
  rw [List.Sorted, List.pairwise_append]
  refine ⟨sortedGenList_sorted d, List.pairwise_singleton _ _, ?_⟩
  intro x hx y hy
  simp only [List.mem_singleton] at hy
  subst hy
  exact le_of_lt (hmax x hx)

theorem sorted_le_getLast {l : List Nat} (hs : List.Sorted (· ≤ ·) l) :
    ∀ x ∈ l, x ≤ l.getLast?.getD 0 := by
  induction l with
  | nil => intro x hx; simp at hx
  | cons a t ih =>
    intro x hx
    rcases t with _ | ⟨b, t'⟩
    · simp only [List.mem_singleton] at hx
      subst hx
      simp
    · rw [List.sorted_cons] at hs
      have hlast : (a :: b :: t').getLast?.getD 0 = (b :: t').getLast?.getD 0 := by
        simp [List.getLast?]
      rw [hlast]
      rcases List.mem_cons.mp hx with hxa | hxt
      · subst hxa
        have hb : x ≤ b := hs.1 b (List.mem_cons_self _ _)
        have := ih hs.2 b (List.mem_cons_self _ _)
        omega
      · exact ih hs.2 x hxt

theorem sorted_getLast_eq_listMax {l : List Nat}
    (hs : List.Sorted (· ≤ ·) l) : l.getLast?.getD 0 = listMax l := by
  induction l with
  | nil => rfl
  | cons a t ih =>
    rcases t with _ | ⟨b, t'⟩
    · simp [listMax]
    · rw [List.sorted_cons] at hs
      have hlast : (a :: b :: t').getLast?.getD 0 = (b :: t').getLast?.getD 0 := by
        simp [List.getLast?]
      have hble : b ≤ listMax (b :: t') := by
        simp only [listMax, List.foldr_cons]
        exact Nat.le_max_left _ _
      have hab : a ≤ b := hs.1 b (List.mem_cons_self _ _)
      rw [hlast, ih hs.2]
      show listMax (b :: t') = listMax (a :: b :: t')
      simp only [listMax, List.foldr_cons] at hble ⊢
      have hax : a ≤ b.max (List.foldr Nat.max 0 t') :=
        le_trans hab (Nat.le_max_left _ _)
      exact (Nat.max_eq_right hax).symm

theorem decodeOne_drop_facts {content : List Char} {pos : Nat}
    {cmd : Command} {rest : List Char}
    (h : decodeOneCommand (content.drop pos) = some (cmd, rest)) :
    rest.length < content.length - pos ∧ rest.length ≤ content.length := by
  have h1 := decodeOneCommand_length h
  rw [List.length_drop] at h1
  omega

/-- The fuel of `loadAux` is irrelevant as long as it exceeds the number of
unread characters. -/
theorem loadAux_irrel (gen : Nat) (content : List Char) :
    ∀ fuel1 fuel2 pos ix,
      content.length - pos < fuel1 → content.length - pos < fuel2 →
      loadAux gen content fuel1 pos ix = loadAux gen content fuel2 pos ix := by
  intro fuel1
  induction fuel1 with
  | zero => intro fuel2 pos ix h1; omega
  | succ fuel1 ih =>
    intro fuel2 pos ix h1 h2
    match fuel2, h2 with
    | fuel2 + 1, _ =>
      rw [loadAux, loadAux]
      by_cases hend : content.drop pos = []
      · rw [if_pos hend, if_pos hend]
      · rw [if_neg hend, if_neg hend]
        rcases hdec : decodeOneCommand (content.drop pos) with _ | ⟨cmd, rest⟩
        · rfl
        · have hfacts := decodeOne_drop_facts hdec
          have hlt1 : content.length - (content.length - rest.length) < fuel1 := by
            omega
          have hlt2 : content.length - (content.length - rest.length) < fuel2 := by
            omega
          rcases cmd with ⟨k, v⟩ | ⟨k⟩
          · simp only []
            exact ih fuel2 _ _ hlt1 hlt2
          · simp only []
            by_cases hc : ixContains ix k
            · rw [if_pos hc, if_pos hc]
              exact ih fuel2 _ _ hlt1 hlt2
            · rw [if_neg hc, if_neg hc]

/-- Replay of a log prefix continues identically when more records are
appended after it: a successful run of `loadAux` over `c` becomes the
prefix of a run over `c ++ z` that proceeds from position `c.length` with
the same index. -/
theorem loadAux_append (gen : Nat) (c z : List Char) :
    ∀ fuel1 pos ix ix',
      pos ≤ c.length →
      loadAux gen c fuel1 pos ix = .ok ix' →
      loadAux gen (c ++ z) ((c ++ z).length - pos + 1) pos ix =
        loadAux gen (c ++ z) (z.length + 1) c.length ix' := by
  intro fuel1
  induction fuel1 with
  | zero =>
    intro pos ix ix' hpos h
    rw [loadAux] at h
    exact absurd h (by simp)
  | succ fuel1 ih =>
    intro pos ix ix' hpos h
    rw [loadAux] at h
    by_cases hend : c.drop pos = []
    · rw [if_pos hend] at h
      injection h with h
      subst h
      have hceq : pos = c.length := by
        have := List.drop_eq_nil_iff.mp hend
        omega
      subst hceq
      rw [show (c ++ z).length - c.length + 1 = z.length + 1 from by
        simp only [List.length_append]; omega]
    · rw [if_neg hend] at h
      rcases hdec : decodeOneCommand (c.drop pos) with _ | ⟨cmd, rest⟩ <;>
        rw [hdec] at h <;> simp only [] at h
      · exact absurd h (by simp)
      · obtain ⟨x, hx, hxne, hext⟩ := decodeOneCommand_spec hdec
        have hfacts := decodeOne_drop_facts hdec
        have hdropz : (c ++ z).drop pos = c.drop pos ++ z :=
          List.drop_append_of_le_length hpos
        have hdec2 : decodeOneCommand ((c ++ z).drop pos) =
            some (cmd, rest ++ z) := by
          rw [hdropz, hx, List.append_assoc]
          exact hext (rest ++ z)
        have hne2 : (c ++ z).drop pos ≠ [] := by
          rw [hdropz, hx]
          simp [hxne]
        have hnewpos : (c ++ z).length - (rest ++ z).length =
            c.length - rest.length := by
          simp only [List.length_append]
          omega
        have hposlt : pos < c.length - rest.length := by
          have hxlen := congrArg List.length hx
          simp only [List.length_drop, List.length_append] at hxlen
          have : 1 ≤ x.length := List.length_pos.mpr hxne
          omega
        rw [loadAux, if_neg hne2, hdec2]
        simp only [hnewpos]
        rcases cmd with ⟨k, v⟩ | ⟨k⟩
        · simp only [] at h ⊢
          rw [loadAux_irrel gen (c ++ z) ((c ++ z).length - pos)
            ((c ++ z).length - (c.length - rest.length) + 1) (c.length - rest.length) _
            (by simp only [List.length_append]; omega)
            (by simp only [List.length_append]; omega)]
          exact ih (c.length - rest.length) _ ix' (by omega) h
        · simp only [] at h ⊢
          by_cases hc : ixContains ix k
          · rw [if_pos hc] at h ⊢
            rw [loadAux_irrel gen (c ++ z) ((c ++ z).length - pos)
              ((c ++ z).length - (c.length - rest.length) + 1) (c.length - rest.length) _
              (by simp only [List.length_append]; omega)
              (by simp only [List.length_append]; omega)]
            exact ih (c.length - rest.length) _ ix' (by omega) h
          · rw [if_neg hc] at h
            exact absurd h (by simp)

theorem encodeCommand_ne_nil (cmd : Command) : encodeCommand cmd ≠ [] := by
  cases cmd <;> simp [encodeCommand, setPre, removePre]

theorem encodeCommand_length_pos (cmd : Command) :
    1 ≤ (encodeCommand cmd).length :=
  List.length_pos.mpr (encodeCommand_ne_nil cmd)

/-- Appending one serialized command to a segment extends a successful
replay of that segment by exactly the corresponding index update, recorded
at position `c.length` with the record's length. -/
theorem load_append_cmd (gen : Nat) (c : List Char) (cmd : Command)
    {ix ix' : Index} (h : load gen c ix = .ok ix') :
    load gen (c ++ encodeCommand cmd) ix =
      (match cmd with
       | .Set k _ =>
         .ok (alInsert ix' k ⟨gen, c.length, (encodeCommand cmd).length⟩)
       | .Remove k =>
         if ixContains ix' k then .ok (alErase ix' k)
         else .error .replayInconsistency) := by
  set z := encodeCommand cmd with hz
  have happ := loadAux_append gen c z (c.length + 1) 0 ix ix' (Nat.zero_le _) h
  rw [Nat.sub_zero] at happ
  show loadAux gen (c ++ z) ((c ++ z).length + 1) 0 ix = _
  rw [happ]
  have hdropc : (c ++ z).drop c.length = z := List.drop_left c z
  have hzne : z ≠ [] := encodeCommand_ne_nil cmd
  have hdecz : decodeOneCommand ((c ++ z).drop c.length) = some (cmd, []) := by
    rw [hdropc]
    have := decodeOneCommand_encode cmd []
    rwa [List.append_nil] at this
  rw [loadAux, if_neg (by rw [hdropc]; exact hzne), hdecz]
  simp only [List.length_nil, Nat.sub_zero]
  have hdone : ∀ ix2, loadAux gen (c ++ z) z.length (c ++ z).length ix2 =
      .ok ix2 := by
    intro ix2
    have hz1 : 1 ≤ z.length := List.length_pos.mpr hzne
    match hzl : z.length, hz1 with
    | zl + 1, _ =>
      rw [loadAux, if_pos (List.drop_eq_nil_iff.mpr (le_refl _))]
  rcases cmd with ⟨k, v⟩ | ⟨k⟩
  · simp only []
    rw [show (c ++ z).length - c.length = z.length from by
      simp [List.length_append]]
    exact hdone _
  · simp only []
    by_cases hc : ixContains ix' k
    · rw [if_pos hc, if_pos hc]
      exact hdone _
    · rw [if_neg hc, if_neg hc]

/-- Every entry of an index produced by replaying one segment either was
already present or points into that segment at a slice decoding to a `Set`
of its key. -/
theorem loadAux_entries (gen : Nat) (content : List Char) :
    ∀ fuel pos ix ix',
      loadAux gen content fuel pos ix = .ok ix' →
      ∀ k cp, alLookup ix' k = some cp →
        alLookup ix k = some cp ∨
        (cp.gen = gen ∧ cp.pos + cp.len ≤ content.length ∧
          ∃ v, decodeExact ((content.drop cp.pos).take cp.len) =
            some (.Set k v)) := by
  intro fuel
  induction fuel with
  | zero =>
    intro pos ix ix' h
    rw [loadAux] at h
    exact absurd h (by simp)
  | succ fuel ih =>
    intro pos ix ix' h
    rw [loadAux] at h
    by_cases hend : content.drop pos = []
    · rw [if_pos hend] at h
      injection h with h
      subst h
      intro k cp hk
      exact Or.inl hk
    · rw [if_neg hend] at h
      rcases hdec : decodeOneCommand (content.drop pos) with _ | ⟨cmd, rest⟩ <;>
        rw [hdec] at h <;> simp only [] at h
      · exact absurd h (by simp)
      · have hfacts := decodeOne_drop_facts hdec
        have hposle : pos ≤ content.length := by
          by_contra hgt
          exact hend (List.drop_eq_nil_iff.mpr (by omega))
        rcases cmd with ⟨k0, v0⟩ | ⟨k0⟩
        · intro k cp hk
          rcases ih _ _ _ h k cp hk with hold | hnew
          · by_cases hkk : k = k0
            · subst hkk
              rw [alLookup_insert_self] at hold
              injection hold with hold
              subst hold
              right
              refine ⟨rfl, ?_, ⟨v0, ?_⟩⟩
              · simp only []
                omega
              · simp only []
                have htake := decodeOneCommand_take hdec
                rw [List.length_drop] at htake
                rw [show content.length - rest.length - pos =
                  content.length - pos - rest.length from by omega]
                exact htake
            · rw [alLookup_insert_ne _ _ hkk] at hold
              exact Or.inl hold
          · exact Or.inr hnew
        · simp only [] at h
          by_cases hc : ixContains ix k0
          · rw [if_pos hc] at h
            intro k cp hk
            rcases ih _ _ _ h k cp hk with hold | hnew
            · by_cases hkk : k = k0
              · subst hkk
                rw [alLookup_erase_self] at hold
                exact absurd hold (by simp)
              · rw [alLookup_erase_ne _ hkk] at hold
                exact Or.inl hold
            · exact Or.inr hnew
          · rw [if_neg hc] at h
            exact absurd h (by simp)

theorem replayStep_error (d : Dir) (e : KvsError) (l : List Nat) :
    l.foldl (replayStep d) (.error e) = .error e := by
  induction l with
  | nil => rfl
  | cons g t ih => simpa [replayStep] using ih

/-- The replay fold only looks at the directory through the segment files of
the generations in the list. -/
theorem replay_foldl_congr {d1 d2 : Dir} (l : List Nat)
    (h : ∀ g ∈ l, alLookup d1 (genFileName g) = alLookup d2 (genFileName g)) :
    ∀ acc, l.foldl (replayStep d1) acc = l.foldl (replayStep d2) acc := by
  induction l with
  | nil => intro acc; rfl
  | cons g t ih =>
    intro acc
    simp only [List.foldl_cons]
    have hstep : replayStep d1 acc g = replayStep d2 acc g := by
      unfold replayStep
      rcases acc with e | ix
      · rfl
      · rw [h g (List.mem_cons_self _ _)]
    rw [hstep]
    exact ih (fun g' hg' => h g' (List.mem_cons_of_mem _ hg')) _

theorem load_nil (gen : Nat) (ix : Index) : load gen [] ix = .ok ix := rfl

theorem openStore_ok {d : Dir} {s : KvStore} (h : openStore d = .ok s) :
    replayDir d = .ok s.index ∧
    s.currentGeneration = (sortedGenList d).getLast?.getD 0 + 1 ∧
    s.dir = alInsert d (genFileName s.currentGeneration) [] ∧
    s.store = (sortedGenList d).map (fun g => (g, true)) ++
      [(s.currentGeneration, false)] ∧
    s.logPos = 0 := by
  unfold openStore at h
  rcases hrep : replayDir d with e | ix
  · rw [hrep] at h
    exact absurd h (by simp)
  · rw [hrep] at h
    simp only [] at h
    injection h with h
    subst h
    exact ⟨rfl, rfl, rfl, rfl, rfl⟩

theorem open_cur_gt {d : Dir} {s : KvStore} (h : openStore d = .ok s) :
    ∀ x ∈ sortedGenList d, x < s.currentGeneration := by
  intro x hx
  have hle := sorted_le_getLast (sortedGenList_sorted d) x hx
  have hcur := (openStore_ok h).2.1
  omega

theorem open_fresh {d : Dir} {s : KvStore} (h : openStore d = .ok s) :
    genFileName s.currentGeneration ∉ d.map Prod.fst := by
  intro hmem
  have := mem_sortedGenList_of_name hmem
  exact absurd (open_cur_gt h _ this) (lt_irrefl _)

theorem mem_names_of_lookup {β : Type} {d : List (String × β)} {n : String}
    {c : β} (h : alLookup d n = some c) : n ∈ d.map Prod.fst :=
  List.mem_map_of_mem Prod.fst (alLookup_mem h)

/-- In a reader map whose flags are computed from the generation alone,
looking up a listed generation returns its computed flag (every entry for a
given generation carries the same flag, so the first match suffices). -/
theorem readerLookup_map {l : List Nat} {cur g : Nat} (h : g ∈ l) :
    readerLookup (l.map fun x => (x, x != cur)) g = some (g != cur) := by
  induction l with
  | nil => cases h
  | cons a t ih =>
    simp only [List.map_cons, readerLookup]
    by_cases hg : g = a
    · subst hg
      rw [if_pos rfl]
    · rw [if_neg hg]
      exact ih (List.mem_of_ne_of_mem hg h)

/-- A generation replayed at `open` looks up as readable in the reopened
store's reader map, whatever follows its entry. -/
theorem readerLookup_append_true {l : List Nat} {rest : List (Nat × Bool)}
    {g : Nat} (h : g ∈ l) :
    readerLookup (l.map (fun x => (x, true)) ++ rest) g = some true := by
  induction l with
  | nil => cases h
  | cons a t ih =>
    simp only [List.map_cons, List.cons_append, readerLookup]
    by_cases hg : g = a
    · rw [if_pos hg]
    · rw [if_neg hg]
      exact ih (List.mem_of_ne_of_mem hg h)

/-- Replaying a whole directory only produces entries pointing into files of
generations listed, with slices decoding to a `Set` of the key. -/
theorem replay_foldl_entries (d : Dir) (l : List Nat) :
    ∀ (acc : Index) (ix' : Index),
      l.foldl (replayStep d) (.ok acc) = .ok ix' →
      ∀ k cp, alLookup ix' k = some cp →
        alLookup acc k = some cp ∨
        (cp.gen ∈ l ∧ ∃ content,
          alLookup d (genFileName cp.gen) = some content ∧
          cp.pos + cp.len ≤ content.length ∧
          ∃ v, decodeExact ((content.drop cp.pos).take cp.len) =
            some (.Set k v)) := by
  induction l with
  | nil =>
    intro acc ix' h k cp hk
    simp only [List.foldl_nil] at h
    injection h with h
    subst h
    exact Or.inl hk
  | cons g t ih =>
    intro acc ix' h k cp hk
    simp only [List.foldl_cons] at h
    rcases hstep : replayStep d (.ok acc) g with e | mid
    · rw [hstep, replayStep_error] at h
      exact absurd h (by simp)
    · rw [hstep] at h
      unfold replayStep at hstep
      rcases hlook : alLookup d (genFileName g) with _ | content
      · rw [hlook] at hstep
        exact absurd hstep (by simp)
      · rw [hlook] at hstep
        rcases ih mid ix' h k cp hk with hacc | ⟨hgen, hrest⟩
        · rcases loadAux_entries g content _ _ _ _ hstep k cp hacc with
            hacc2 | ⟨hgen, hbound, hv⟩
          · exact Or.inl hacc2
          · refine Or.inr ⟨hgen ▸ List.mem_cons_self _ _, content, ?_, hbound, hv⟩
            rw [hgen]
            exact hlook
        · exact Or.inr ⟨List.mem_cons_of_mem _ hgen, hrest⟩

/-- Opening a well-formed directory establishes the store invariant. -/
theorem openStore_inv {d : Dir} {s : KvStore} (hwf : WFDir d)
    (h : openStore d = .ok s) : StoreInv s := by
  obtain ⟨hrep, hcur, hdir, hstore, hlog⟩ := openStore_ok h
  have hfresh := open_fresh h
  have hmax := open_cur_gt h
  have hsorted' : sortedGenList s.dir =
      sortedGenList d ++ [s.currentGeneration] := by
    rw [hdir]
    exact sortedGenList_insert_max [] hfresh hmax
  refine ⟨?_, ?_, ?_, ?_, ?_, ?_⟩
  · rw [hdir]
    exact alInsert_wf _ _ hwf
  · refine ⟨[], ?_, by simp [hlog]⟩
    rw [hdir]
    exact alLookup_insert_self _ _ _
  · rw [hstore, hsorted', List.map_append, List.map_singleton]
    congr 1
    · refine (List.map_congr_left fun x hx => ?_).symm
      have hne : x ≠ s.currentGeneration := Nat.ne_of_lt (hmax x hx)
      simp [hne]
    · simp
  · exact ⟨sortedGenList d, hsorted', hmax⟩
  · show (sortedGenList s.dir).foldl (replayStep s.dir) (.ok []) = .ok s.index
    rw [hsorted', List.foldl_append]
    have hcongr : (sortedGenList d).foldl (replayStep s.dir) (.ok []) =
        (sortedGenList d).foldl (replayStep d) (.ok []) := by
      apply replay_foldl_congr
      intro g' hg'
      rw [hdir]
      exact alLookup_insert_ne _ _
        (fun he => absurd (genFileName_inj he ▸ hmax g' hg') (lt_irrefl _))
    rw [hcongr]
    show replayStep s.dir (replayDir d) s.currentGeneration = .ok s.index
    rw [hrep]
    unfold replayStep
    rw [show alLookup s.dir (genFileName s.currentGeneration) = some [] from by
      rw [hdir]; exact alLookup_insert_self _ _ _]
    exact load_nil _ _
  · intro k cp hk
    have hfold : (sortedGenList d).foldl (replayStep d) (.ok []) = .ok s.index :=
      hrep
    rcases replay_foldl_entries d _ [] s.index hfold k cp hk with habs | hfacts
    · exact absurd habs (by simp [alLookup])
    · obtain ⟨hgen, content, hlook, hbound, v, hdec⟩ := hfacts
      have hne : genFileName cp.gen ≠ genFileName s.currentGeneration :=
        fun he => absurd (genFileName_inj he ▸ hmax cp.gen hgen) (lt_irrefl _)
      refine ⟨?_, content, v, ?_, hbound, hdec⟩
      · rw [hsorted']
        exact List.mem_append_left _ hgen
      · rw [hdir, alLookup_insert_ne _ _ hne]
        exact hlook

theorem slice_append_of_le {c b : List Char} {p n : Nat}
    (h : p + n ≤ c.length) :
    ((c ++ b).drop p).take n = (c.drop p).take n := by
  rw [List.drop_append_of_le_length (by omega),
    List.take_append_of_le_length (by rw [List.length_drop]; omega)]

theorem set_fields {s : KvStore} {c : List Char}
    (hc : alLookup s.dir (genFileName s.currentGeneration) = some c)
    (k v : String) :
    KvStore.set s k v = { s with
      dir := alInsert s.dir (genFileName s.currentGeneration)
        (c ++ encodeCommand (.Set k v))
      logPos := s.logPos + (encodeCommand (.Set k v)).length
      index := alInsert s.index k
        ⟨s.currentGeneration, s.logPos, (encodeCommand (.Set k v)).length⟩ } := by
  unfold KvStore.set KvStore.setIo appendActive
  rw [hc]

theorem removeIo_not_contains {s : KvStore} {k : String}
    (h : ixContains s.index k = false) (w : WriteOutcome) :
    KvStore.removeIo w s k = (.error .keyNotFound, s) := by
  unfold KvStore.removeIo
  rw [if_neg (by simp [h])]

theorem remove_not_contains {s : KvStore} {k : String}
    (h : ixContains s.index k = false) :
    KvStore.remove s k = .error .keyNotFound := by
  unfold KvStore.remove
  rw [removeIo_not_contains h .allOk]

theorem remove_contains_fields {s : KvStore} {c : List Char}
    (hc : alLookup s.dir (genFileName s.currentGeneration) = some c)
    {k : String} (hcont : ixContains s.index k = true) :
    KvStore.remove s k = .ok { s with
      dir := alInsert s.dir (genFileName s.currentGeneration)
        (c ++ encodeCommand (.Remove k))
      logPos := s.logPos + (encodeCommand (.Remove k)).length
      index := alErase s.index k } := by
  unfold KvStore.remove KvStore.removeIo appendActive
  rw [if_pos hcont, hc]

theorem remove_ok_inv {s s' : KvStore} {k : String}
    (h : KvStore.remove s k = .ok s') :
    ixContains s.index k = true ∧
    s'.index = alErase s.index k ∧
    s'.currentGeneration = s.currentGeneration ∧
    s'.store = s.store := by
  unfold KvStore.remove KvStore.removeIo at h
  by_cases hcont : ixContains s.index k
  · rw [if_pos hcont] at h
    simp only [] at h
    injection h with h
    subst h
    exact ⟨hcont, rfl, rfl, rfl⟩
  · rw [if_neg hcont] at h
    exact absurd h (by simp)

/-- Appending one record to the active segment turns a replay of the whole
directory into the corresponding index update applied after replaying the
old contents. -/
theorem replay_append_active {s : KvStore} (hinv : StoreInv s) {c : List Char}
    (hc : alLookup s.dir (genFileName s.currentGeneration) = some c)
    (cmd : Command) :
    replayDir (alInsert s.dir (genFileName s.currentGeneration)
        (c ++ encodeCommand cmd)) =
      (match cmd with
       | .Set k _ =>
         .ok (alInsert s.index k
           ⟨s.currentGeneration, c.length, (encodeCommand cmd).length⟩)
       | .Remove k =>
         if ixContains s.index k then .ok (alErase s.index k)
         else .error .replayInconsistency) := by
  obtain ⟨hwf, ⟨c0, hc0, hclen⟩, hstore, ⟨pre, hpre, hmax⟩, hrep, hent⟩ := hinv
  set g := s.currentGeneration with hg
  set d' := alInsert s.dir (genFileName g) (c ++ encodeCommand cmd) with hd'
  have hnamemem : genFileName g ∈ s.dir.map Prod.fst := mem_names_of_lookup hc
  have hsorted' : sortedGenList d' = sortedGenList s.dir :=
    sortedGenList_congr (alInsert_names_perm _ hwf hnamemem)
  have hrep0 : (sortedGenList s.dir).foldl (replayStep s.dir) (.ok []) =
      .ok s.index := hrep
  rw [hpre, List.foldl_append] at hrep0
  rcases hacc : (pre).foldl (replayStep s.dir) (.ok []) with e | ixPre
  · rw [hacc] at hrep0
    simp only [List.foldl_cons, List.foldl_nil] at hrep0
    rw [show replayStep s.dir (.error e) g = .error e from rfl] at hrep0
    exact absurd hrep0 (by simp)
  · rw [hacc] at hrep0
    simp only [List.foldl_cons, List.foldl_nil] at hrep0
    unfold replayStep at hrep0
    rw [hc] at hrep0
    simp only [] at hrep0
    -- hrep0 : load g c ixPre = .ok s.index
    show (sortedGenList d').foldl (replayStep d') (.ok []) = _
    rw [hsorted', hpre, List.foldl_append]
    have hcongr : pre.foldl (replayStep d') (.ok []) =
        pre.foldl (replayStep s.dir) (.ok []) := by
      apply replay_foldl_congr
      intro g' hg'
      rw [hd']
      exact alLookup_insert_ne _ _
        (fun he => absurd (genFileName_inj he ▸ hmax g' hg') (lt_irrefl _))
    rw [hcongr, hacc]
    simp only [List.foldl_cons, List.foldl_nil]
    unfold replayStep
    rw [show alLookup d' (genFileName g) = some (c ++ encodeCommand cmd) from by
      rw [hd']; exact alLookup_insert_self _ _ _]
    exact load_append_cmd g c cmd hrep0

/-- The store invariant is preserved by a successful `set`. -/
theorem set_inv {s : KvStore} (hinv : StoreInv s) (k v : String) :
    StoreInv (KvStore.set s k v) := by
  obtain ⟨hwf, ⟨c, hc, hclen⟩, hstore, ⟨pre, hpre, hmax⟩, hrep, hent⟩ := hinv
  have hrepnew := replay_append_active
    ⟨hwf, ⟨c, hc, hclen⟩, hstore, ⟨pre, hpre, hmax⟩, hrep, hent⟩ hc (.Set k v)
  rw [set_fields hc k v]
  set g := s.currentGeneration with hg
  set bytes := encodeCommand (Command.Set k v) with hbytes
  set d' := alInsert s.dir (genFileName g) (c ++ bytes) with hd'
  have hnamemem : genFileName g ∈ s.dir.map Prod.fst := mem_names_of_lookup hc
  have hsorted' : sortedGenList d' = sortedGenList s.dir :=
    sortedGenList_congr (alInsert_names_perm _ hwf hnamemem)
  refine ⟨?_, ?_, ?_, ?_, ?_, ?_⟩
  · exact alInsert_wf _ _ hwf
  · refine ⟨c ++ bytes, alLookup_insert_self _ _ _, ?_⟩
    simp [List.length_append, hclen]
  · show s.store = (sortedGenList d').map fun x => (x, x != g)
    rw [hsorted']
    exact hstore
  · exact ⟨pre, by rw [hsorted', hpre], hmax⟩
  · show replayDir d' = _
    rw [hrepnew]
    simp only []
    rw [hclen]
  · intro k' cp hk'
    by_cases hkk : k' = k
    · subst hkk
      rw [alLookup_insert_self] at hk'
      injection hk' with hk'
      subst hk'
      refine ⟨?_, c ++ bytes, v, alLookup_insert_self _ _ _, ?_, ?_⟩
      · show g ∈ sortedGenList d'
        rw [hsorted', hpre]
        exact List.mem_append_right _ (List.mem_singleton_self _)
      · simp only []
        simp [List.length_append, hclen]
      · simp only []
        rw [← hclen, List.drop_left, List.take_length]
        exact decodeExact_encode _
    · rw [alLookup_insert_ne _ _ hkk] at hk'
      obtain ⟨hmem, content, v0, hlook, hbound, hdec⟩ := hent k' cp hk'
      by_cases hgg : cp.gen = g
      · have hcc : content = c := by
          rw [hgg] at hlook
          rw [hlook] at hc
          exact Option.some.inj hc
        subst hcc
        refine ⟨by rw [hsorted']; exact hmem, content ++ bytes, v0, ?_, ?_, ?_⟩
        · rw [hgg, hd']
          exact alLookup_insert_self _ _ _
        · simp only [List.length_append]
          omega
        · rw [slice_append_of_le hbound]
          exact hdec
      · refine ⟨by rw [hsorted']; exact hmem, content, v0, ?_, hbound, hdec⟩
        rw [hd', alLookup_insert_ne _ _ (fun he => hgg (genFileName_inj he))]
        exact hlook

/-- The store invariant is preserved by a successful `remove`. -/
theorem remove_inv {s s' : KvStore} (hinv : StoreInv s) {k : String}
    (h : KvStore.remove s k = .ok s') : StoreInv s' := by
  obtain ⟨hwf, ⟨c, hc, hclen⟩, hstore, ⟨pre, hpre, hmax⟩, hrep, hent⟩ := hinv
  have hrepnew := replay_append_active
    ⟨hwf, ⟨c, hc, hclen⟩, hstore, ⟨pre, hpre, hmax⟩, hrep, hent⟩ hc (.Remove k)
  rcases hcont : ixContains s.index k with hfalse | htrue
  · rw [remove_not_contains hcont] at h
    exact absurd h (by simp)
  · rw [remove_contains_fields hc hcont] at h
    injection h with h
    subst h
    set g := s.currentGeneration with hg
    set bytes := encodeCommand (Command.Remove k) with hbytes
    set d' := alInsert s.dir (genFileName g) (c ++ bytes) with hd'
    have hnamemem : genFileName g ∈ s.dir.map Prod.fst := mem_names_of_lookup hc
    have hsorted' : sortedGenList d' = sortedGenList s.dir :=
      sortedGenList_congr (alInsert_names_perm _ hwf hnamemem)
    refine ⟨?_, ?_, ?_, ?_, ?_, ?_⟩
    · exact alInsert_wf _ _ hwf
    · refine ⟨c ++ bytes, alLookup_insert_self _ _ _, ?_⟩
      simp [List.length_append, hclen]
    · show s.store = (sortedGenList d').map fun x => (x, x != g)
      rw [hsorted']
      exact hstore
    · exact ⟨pre, by rw [hsorted', hpre], hmax⟩
    · show replayDir d' = _
      rw [hrepnew]
      simp only []
      rw [if_pos hcont]
    · intro k' cp hk'
      by_cases hkk : k' = k
      · subst hkk
        rw [alLookup_erase_self] at hk'
        exact absurd hk' (by simp)
      · rw [alLookup_erase_ne _ hkk] at hk'
        obtain ⟨hmem, content, v0, hlook, hbound, hdec⟩ := hent k' cp hk'
        by_cases hgg : cp.gen = g
        · have hcc : content = c := by
            rw [hgg] at hlook
            rw [hlook] at hc
            exact Option.some.inj hc
          subst hcc
          refine ⟨by rw [hsorted']; exact hmem, content ++ bytes, v0, ?_, ?_, ?_⟩
          · rw [hgg, hd']
            exact alLookup_insert_self _ _ _
          · simp only [List.length_append]
            omega
          · rw [slice_append_of_le hbound]
            exact hdec
        · refine ⟨by rw [hsorted']; exact hmem, content, v0, ?_, hbound, hdec⟩
          rw [hd', alLookup_insert_ne _ _ (fun he => hgg (genFileName_inj he))]
          exact hlook

theorem set_cur (s : KvStore) (k v : String) :
    (KvStore.set s k v).currentGeneration = s.currentGeneration := rfl

/-- Invariant and active generation along any successful operation
sequence. -/
theorem steps_inv {s t : KvStore} (h : Steps s t) (hinv : StoreInv s) :
    StoreInv t ∧ t.currentGeneration = s.currentGeneration := by
  induction h with
  | refl => exact ⟨hinv, rfl⟩
  | set k v hst ih => exact ⟨set_inv ih.1 k v, by rw [set_cur]; exact ih.2⟩
  | remove hst hrm ih =>
    have hfields := remove_ok_inv hrm
    exact ⟨remove_inv ih.1 hrm, by rw [hfields.2.2.1]; exact ih.2⟩

/-- Every reachable store state satisfies the invariant. -/
theorem reachable_inv {s : KvStore} (h : Reachable s) : StoreInv s := by
  obtain ⟨d, s0, hwf, hopen, hsteps⟩ := h
  exact (steps_inv hsteps (openStore_inv hwf hopen)).1

theorem demoS0_open : openStore [] = .ok demoS0 := rfl

theorem demoS0_reachable : Reachable demoS0 :=
  ⟨[], demoS0, by simp [WFDir], demoS0_open, Steps.refl _⟩

theorem demoS1_open : openStore demoS0.dir = .ok demoS1 := rfl

theorem demoSet_reachable : Reachable (KvStore.set demoS0 "a" "1") :=
  ⟨[], demoS0, by simp [WFDir], demoS0_open, Steps.set "a" "1" (Steps.refl _)⟩

theorem demoS2_open :
    openStore (KvStore.set demoS0 "a" "1").dir = .ok demoS2 := rfl

/-- After a successful `set`, the key's index entry names the active
generation, whose reader handle is the write-only `File::create` one
(kv.rs line 43), so reading the record back fails with an I/O error. -/
theorem set_get_ioError {s : KvStore} (hinv : StoreInv s) (k v : String) :
    KvStore.get (KvStore.set s k v) k = .error .ioError := by
  obtain ⟨hwf, ⟨c, hc, hclen⟩, hstore, ⟨pre, hpre, hmax⟩, hrep, hent⟩ := hinv
  rw [set_fields hc k v]
  unfold KvStore.get
  simp only []
  rw [alLookup_insert_self]
  simp only []
  have hmemg : s.currentGeneration ∈ sortedGenList s.dir := by
    rw [hpre]
    exact List.mem_append_right _ (List.mem_singleton_self _)
  rw [hstore, readerLookup_map hmemg]
  simp only []
  rw [if_neg (by simp)]

/-- C1 (code bug): the claimed round-trip fails in the code.  The reader
`open` installs for the active generation is made from `File::create`
(kv.rs line 43) and is therefore write-only, and the index entry written by
`set` points at the active generation, so in every reachable state a
successful `set(k, v)` followed by `get(k)` reads through that handle and
returns an I/O error instead of `Some(v)`. -/
theorem claim_C1 {s : KvStore} (h : Reachable s) (k v : String) :
    KvStore.get (KvStore.set s k v) k = .error .ioError ∧
    KvStore.get (KvStore.set s k v) k ≠ .ok (some v) := by
  have hio := set_get_ioError (reachable_inv h) k v
  refine ⟨hio, ?_⟩
  rw [hio]
  simp

theorem claim_C1_witness :
    KvStore.get (KvStore.set demoS0 "a" "1") "a" = .error .ioError ∧
    KvStore.get (KvStore.set demoS0 "a" "1") "a" ≠ .ok (some "1") :=
  claim_C1 demoS0_reachable "a" "1"

/-- C2 (code bug): `get` results are not identical across close and reopen.
A key set during the session points at the active generation, whose reader
is the write-only `File::create` handle (kv.rs line 43), so `get` before
closing fails with an I/O error; after reopening the same directory that
generation is replayed through a readable `File::open` reader and `get`
returns the value, so the rebuilt store is observably different. -/
theorem claim_C2 {d : Dir} {s0 s t : KvStore} (hwf : WFDir d)
    (hopen : openStore d = .ok s0) (hsteps : Steps s0 s) (k v : String)
    (hreopen : openStore (KvStore.set s k v).dir = .ok t) :
    KvStore.get (KvStore.set s k v) k = .error .ioError ∧
    KvStore.get t k = .ok (some v) ∧
    KvStore.get t k ≠ KvStore.get (KvStore.set s k v) k := by
  have hinv := (steps_inv hsteps (openStore_inv hwf hopen)).1
  have hio := set_get_ioError hinv k v
  obtain ⟨hwfs, ⟨c, hc, hclen⟩, hstores, hpres, hreps, hents⟩ := hinv
  obtain ⟨hwf', hex', hstore', ⟨pre', hpre', hmax'⟩, hrep', hent'⟩ :=
    set_inv ⟨hwfs, ⟨c, hc, hclen⟩, hstores, hpres, hreps, hents⟩ k v
  obtain ⟨hrept, hcurt, hdirt, hstoret, hlogt⟩ := openStore_ok hreopen
  have hidx : t.index = (KvStore.set s k v).index := by
    rw [show replayDir (KvStore.set s k v).dir = .ok t.index from hrept]
      at hrep'
    exact Except.ok.inj hrep'
  have hg0mem : s.currentGeneration ∈
      sortedGenList (KvStore.set s k v).dir := by
    have hpc := hpre'
    rw [set_cur] at hpc
    rw [hpc]
    exact List.mem_append_right _ (List.mem_singleton_self _)
  have hget_t : KvStore.get t k = .ok (some v) := by
    have hkentry : alLookup t.index k = some
        ⟨s.currentGeneration, s.logPos, (encodeCommand (.Set k v)).length⟩ := by
      rw [hidx, set_fields hc k v]
      exact alLookup_insert_self _ _ _
    unfold KvStore.get
    rw [hkentry]
    simp only []
    rw [hstoret, readerLookup_append_true hg0mem]
    simp only []
    rw [if_pos trivial]
    have hcurgt := open_cur_gt hreopen _ hg0mem
    have hnet : genFileName s.currentGeneration ≠
        genFileName t.currentGeneration :=
      fun he => absurd (genFileName_inj he ▸ hcurgt) (lt_irrefl _)
    rw [hdirt, alLookup_insert_ne _ _ hnet, set_fields hc k v]
    simp only []
    rw [alLookup_insert_self]
    simp only []
    rw [← hclen, List.drop_left, List.take_length, decodeExact_encode]
  refine ⟨hio, hget_t, ?_⟩
  rw [hget_t, hio]
  simp

theorem claim_C2_witness :
    KvStore.get (KvStore.set demoS0 "a" "1") "a" = .error .ioError ∧
    KvStore.get demoS2 "a" = .ok (some "1") ∧
    KvStore.get demoS2 "a" ≠ KvStore.get (KvStore.set demoS0 "a" "1") "a" :=
  claim_C2 (by simp [WFDir]) demoS0_open (Steps.refl _) "a" "1" demoS2_open

/-- C3: in every reachable store state (so the property is preserved by
`open`, `set`, `get` and `remove`), every key present in the index points at
a slice of the recorded generation's segment file that decodes to a `Set`
command (never a `Remove`) whose key matches. -/
theorem claim_C3 {s : KvStore} (h : Reachable s) :
    ∀ k cp, alLookup s.index k = some cp →
      ∃ content v, alLookup s.dir (genFileName cp.gen) = some content ∧
        cp.pos + cp.len ≤ content.length ∧
        decodeExact ((content.drop cp.pos).take cp.len) =
          some (Command.Set k v) := by
  intro k cp hk
  obtain ⟨_, _, _, _, _, hent⟩ := reachable_inv h
  exact (hent k cp hk).2

theorem claim_C3_witness :
    ∃ content v,
      alLookup (KvStore.set demoS0 "a" "1").dir (genFileName 1) =
        some content ∧
      0 + 31 ≤ content.length ∧
      decodeExact ((content.drop 0).take 31) = some (Command.Set "a" v) :=
  claim_C3 demoSet_reachable "a" ⟨1, 0, 31⟩ rfl

/-- C4: when `set` or `remove` fails because serialization, the append
write, or the flush fails, the in-memory index is left unchanged (the index
is only updated after the flush succeeds). -/
theorem claim_C4 (w : WriteOutcome) (s : KvStore) (k v : String)
    (e : KvsError) :
    ((KvStore.setIo w s k v).1 = .error e →
      (KvStore.setIo w s k v).2.index = s.index) ∧
    ((KvStore.removeIo w s k).1 = .error e →
      (KvStore.removeIo w s k).2.index = s.index) := by
  constructor
  · intro hfail
    cases w with
    | allOk => simp [KvStore.setIo] at hfail
    | writeFail written => rfl
    | flushFail => rfl
  · intro hfail
    by_cases hcont : ixContains s.index k
    · cases w with
      | allOk => simp [KvStore.removeIo, hcont] at hfail
      | writeFail written => simp [KvStore.removeIo, hcont]
      | flushFail => simp [KvStore.removeIo, hcont]
    · rw [removeIo_not_contains (by simpa using hcont) w]

theorem claim_C4_witness :
    (KvStore.setIo .flushFail demoS0 "a" "1").2.index = demoS0.index ∧
    (KvStore.removeIo .flushFail demoS0 "zz").2.index = demoS0.index :=
  ⟨(claim_C4 .flushFail demoS0 "a" "1" .ioError).1 rfl,
   (claim_C4 .flushFail demoS0 "zz" "x" .keyNotFound).2 rfl⟩

/-- C5: during startup replay, a decoded `Remove` whose key is present
deletes the key's index entry and replay continues; a `Remove` whose key is
not currently present is signaled as a fatal consistency error rather than
silently ignored. -/
theorem claim_C5 (gen : Nat) (content z : List Char) (pos : Nat) (ix : Index)
    (k : String) (fuel : Nat)
    (hdrop : content.drop pos = encodeCommand (.Remove k) ++ z)
    (hfuel : content.length - pos < fuel) :
    loadAux gen content fuel pos ix =
      if ixContains ix k then
        loadAux gen content fuel (content.length - z.length) (alErase ix k)
      else .error .replayInconsistency := by
  have hlen := congrArg List.length hdrop
  rw [List.length_drop, List.length_append] at hlen
  have hencpos := encodeCommand_length_pos (Command.Remove k)
  match fuel, hfuel with
  | f + 1, _ =>
    rw [loadAux,
      if_neg (by rw [hdrop]; simp [encodeCommand_ne_nil]), hdrop,
      decodeOneCommand_encode]
    simp only []
    by_cases hcont : ixContains ix k
    · rw [if_pos hcont, if_pos hcont]
      exact loadAux_irrel gen content f (f + 1)
        (content.length - z.length) _ (by omega) (by omega)
    · rw [if_neg hcont, if_neg hcont]

theorem claim_C5_witness :
    loadAux 1 (encodeCommand (Command.Remove "a"))
        ((encodeCommand (Command.Remove "a")).length + 1) 0 [] =
      if ixContains [] "a" then
        loadAux 1 (encodeCommand (Command.Remove "a"))
          ((encodeCommand (Command.Remove "a")).length + 1)
          ((encodeCommand (Command.Remove "a")).length -
            ([] : List Char).length)
          (alErase [] "a")
      else .error .replayInconsistency :=
  claim_C5 1 (encodeCommand (Command.Remove "a")) [] 0 [] "a" _
    (by simp) (by simp)

/-- C6: `open` computes the new active generation as the maximum existing
generation plus one (one when the directory has no segment files), and the
active generation strictly increases across close-and-reopen, whatever
successful operations ran in between. -/
theorem claim_C6 {d : Dir} {s s' t : KvStore} (hwf : WFDir d)
    (hopen : openStore d = .ok s) (hsteps : Steps s s')
    (hreopen : openStore s'.dir = .ok t) :
    s.currentGeneration = listMax (sortedGenList d) + 1 ∧
    s.currentGeneration < t.currentGeneration := by
  have hcur := (openStore_ok hopen).2.1
  have hstep := steps_inv hsteps (openStore_inv hwf hopen)
  obtain ⟨_, _, _, ⟨pre, hpre, hmax⟩, _, _⟩ := hstep.1
  constructor
  · rw [hcur, sorted_getLast_eq_listMax (sortedGenList_sorted d)]
  · have hcurt := (openStore_ok hreopen).2.1
    have hlast : (sortedGenList s'.dir).getLast?.getD 0 =
        s'.currentGeneration := by
      rw [hpre]
      simp
    rw [hcurt, hlast, hstep.2]
    omega

theorem claim_C6_witness :
    demoS0.currentGeneration = listMax (sortedGenList []) + 1 ∧
    demoS0.currentGeneration < demoS1.currentGeneration :=
  claim_C6 (by simp [WFDir]) demoS0_open (Steps.refl _) demoS1_open

/-- C7: removing a key absent from the index fails with `KeyNotFound`
before any write is attempted, leaving the whole store state (index, writer
position, log contents) unchanged; and a key that was set and then removed
fails the same way on a second remove. -/
theorem claim_C7 :
    (∀ (s : KvStore) (k : String), alLookup s.index k = none →
      KvStore.remove s k = .error .keyNotFound ∧
      ∀ w, KvStore.removeIo w s k = (.error .keyNotFound, s)) ∧
    (∀ (s s' : KvStore) (k : String), KvStore.remove s k = .ok s' →
      KvStore.remove s' k = .error .keyNotFound) := by
  constructor
  · intro s k hnone
    have hfalse : ixContains s.index k = false := by simp [ixContains, hnone]
    exact ⟨remove_not_contains hfalse, fun w => removeIo_not_contains hfalse w⟩
  · intro s s' k hok
    have hfields := remove_ok_inv hok
    have hnone : alLookup s'.index k = none := by
      rw [hfields.2.1]
      exact alLookup_erase_self _ _
    exact remove_not_contains (by simp [ixContains, hnone])

theorem claim_C7_witness :
    KvStore.remove demoS0 "zz" = .error .keyNotFound ∧
    KvStore.removeIo .allOk demoS0 "zz" = (.error .keyNotFound, demoS0) :=
  ⟨(claim_C7.1 demoS0 "zz" rfl).1, (claim_C7.1 demoS0 "zz" rfl).2 .allOk⟩

/-- C8: `get` of a key absent from the index (never set, or set and then
removed) returns `Ok(None)`, a successful "no value" outcome rather than an
error. -/
theorem claim_C8 :
    (∀ (s : KvStore) (k : String), alLookup s.index k = none →
      KvStore.get s k = .ok none) ∧
    (∀ (s s' : KvStore) (k v : String),
      KvStore.remove (KvStore.set s k v) k = .ok s' →
      KvStore.get s' k = .ok none) := by
  constructor
  · intro s k hnone
    unfold KvStore.get
    rw [hnone]
  · intro s s' k v hok
    have hfields := remove_ok_inv hok
    have hnone : alLookup s'.index k = none := by
      rw [hfields.2.1]
      exact alLookup_erase_self _ _
    unfold KvStore.get
    rw [hnone]

theorem claim_C8_witness : KvStore.get demoS0 "zz" = .ok none :=
  claim_C8.1 demoS0 "zz" rfl

/-- C9 (counterexample): the segment file name mapping does not order
lexicographically for all generation pairs: for `g1 = 2 * 10 ^ 15` and
`g2 = 10 ^ 16` (both representable as `u64`), `g1 < g2` yet the file name
of `g2` is not lexicographically greater, because `g2` needs seventeen
digits and escapes the fixed 16-character padding. -/
theorem claim_C9_counterexample :
    2 * 10 ^ 15 < 10 ^ 16 ∧
    ¬ (genFileName (2 * 10 ^ 15) < genFileName (10 ^ 16)) := by
  constructor
  · norm_num
  · rw [String.lt_iff_toList_lt]
    decide

/-- C9 (amended): the file name mapping is deterministic and collision-free
for all generations, and for generations below `10 ^ 16` (those fitting the
16-digit zero padding) numeric order agrees with lexicographic file-name
order. -/
theorem claim_C9 :
    (∀ g1 g2 : Nat, genFileName g1 = genFileName g2 → g1 = g2) ∧
    (∀ g1 g2 : Nat, g1 < g2 → g2 < 10 ^ 16 →
      genFileName g1 < genFileName g2) :=
  ⟨fun _ _ h => genFileName_inj h, fun _ _ h hm => genFileName_lt h hm⟩

theorem claim_C9_witness :
    genFileName 1 < genFileName 2 ∧ 1 = 1 :=
  ⟨claim_C9.2 1 2 (by norm_num) (by norm_num),
   claim_C9.1 1 1 rfl⟩

/-- C10: in every reachable store state, every generation recorded in an
index entry is present in the reader map, so `get` never reaches the
missing-reader branch. -/
theorem claim_C10 {s : KvStore} (h : Reachable s) :
    (∀ k cp, alLookup s.index k = some cp → cp.gen ∈ s.store.map Prod.fst) ∧
    (∀ k, KvStore.get s k ≠ .error .readerMissing) := by
  obtain ⟨_, _, hstore, _, _, hent⟩ := reachable_inv h
  have hfst : s.store.map Prod.fst = sortedGenList s.dir := by
    have hcomp : (Prod.fst ∘ fun g : Nat =>
        (g, g != s.currentGeneration)) = id := rfl
    rw [hstore, List.map_map, hcomp, List.map_id]
  constructor
  · intro k cp hk
    rw [hfst]
    exact (hent k cp hk).1
  · intro k
    unfold KvStore.get
    rcases hl : alLookup s.index k with _ | cp
    · simp
    · simp only []
      rw [hstore, readerLookup_map ((hent k cp hl).1)]
      simp only []
      by_cases hb : (cp.gen != s.currentGeneration) = true
      · rw [if_pos hb]
        rcases alLookup s.dir (genFileName cp.gen) with _ | content
        · simp
        · simp only []
          rcases decodeExact ((content.drop cp.pos).take cp.len) with _ | cmd
          · simp
          · rcases cmd with ⟨k0, v0⟩ | ⟨k0⟩ <;> simp
      · rw [if_neg hb]
        simp

theorem claim_C10_witness :
    (1 ∈ (KvStore.set demoS0 "a" "1").store.map Prod.fst) ∧
    KvStore.get (KvStore.set demoS0 "a" "1") "b" ≠ .error .readerMissing :=
  ⟨(claim_C10 demoSet_reachable).1 "a" ⟨1, 0, 31⟩ rfl,
   (claim_C10 demoSet_reachable).2 "b"⟩
